import Mathlib

/-!
# kres: archive format engine

A shallow embedding of `src/kres` (types.h, utility.h, main.h, main.cpp).

Conventions of the embedding.

* `uint32_t`, `uint64_t` and `size_t` values are natural numbers; every
  arithmetic result that the source stores in such a variable is reduced
  modulo `2^32` or `2^64`.
* `std::byte` and `char` are `Fin 256`; `byte_vec` and `std::string` are lists.
* `std::unordered_map` is an association list with pairwise distinct keys.
  Its iteration order is not fixed by the language, so every function that
  iterates over a table takes the iteration order as the argument `order`.
* The host byte order selected by the preprocessor in `host_to_le32` and
  `host_to_le64` is the argument `big_endian`.
* The external hash `XXH3_64bits` is an argument of every function that
  reaches `generate_id`.
* The external checksum `crc32` is an argument of `validate_entry`.
* Out-parameters are passed in and returned, so that a failing call shows
  what it left behind.
* A result of type `Option` is `none` exactly when the source performs an
  access that the language leaves undefined (an index outside a vector, an
  iterator range outside a vector).
* `reserve` calls allocate only and are left out.
* What `std::filesystem` and `std::ifstream` find at a path is a `path_state`;
  a stream is an `ifstream` record, without device errors.
-/

namespace kres

/-! ## types.h -/

inductive kres_err where
  | KRES_INVALID_STATE
  | KRES_OK
  | KRES_ERROR_BUFFER_OVERFLOW
  | KRES_ERROR_INVALID_ARCHIVE
  | KRES_ERROR_INVALID_ARCHIVE_FILE
  | KRES_ERROR_MISMATCHED_VERSION
  | KRES_ERROR_ENTRY_NOT_FOUND
  | KRES_ERROR_DUPLICATE_ENTRY
  | KRES_ERROR_ENTRY_CORRUPTED
  | KRES_ERROR_FAILED_IO
  | KRES_ERROR_EOF
  | KRES_ERROR_INVALID_INPUT_FILE
deriving DecidableEq, Repr

open kres_err

/-- One octet: the values of `std::byte` and of `char`. -/
abbrev byte := Fin 256

abbrev byte_vec := List byte

abbrev string := List byte

/-- Lookup in a table, as `unordered_map::find`. -/
def map_find {V : Type} : List (Nat × V) → Nat → Option V
  | [], _ => none
  | (k, v) :: m, key => if k = key then some v else map_find m key

/-- Membership of a key, as `unordered_map::contains`. -/
def map_contains {V : Type} (m : List (Nat × V)) (key : Nat) : Bool :=
  (map_find m key).isSome

/-- Assignment `m[key] = val`: overwrite the value of a present key, add an
absent one. -/
def map_assign {V : Type} : List (Nat × V) → Nat → V → List (Nat × V)
  | [], key, val => [(key, val)]
  | (k, v) :: m, key, val =>
    if k = key then (k, val) :: m else (k, v) :: map_assign m key val

/-! ## utility.h -/

/-- Byte reversal of a 32-bit value, the compiler builtin `__builtin_bswap32`. -/
def bswap32 (val : Nat) : Nat :=
  ((val &&& 0xFF) <<< 24) ||| (((val >>> 8) &&& 0xFF) <<< 16) |||
    (((val >>> 16) &&& 0xFF) <<< 8) ||| ((val >>> 24) &&& 0xFF)

/-- Byte reversal of a 64-bit value, the compiler builtin `__builtin_bswap64`. -/
def bswap64 (val : Nat) : Nat :=
  ((val &&& 0xFF) <<< 56) ||| (((val >>> 8) &&& 0xFF) <<< 48) |||
    (((val >>> 16) &&& 0xFF) <<< 40) ||| (((val >>> 24) &&& 0xFF) <<< 32) |||
    (((val >>> 32) &&& 0xFF) <<< 24) ||| (((val >>> 40) &&& 0xFF) <<< 16) |||
    (((val >>> 48) &&& 0xFF) <<< 8) ||| ((val >>> 56) &&& 0xFF)

def host_to_le32 (big_endian : Bool) (val : Nat) : Nat :=
  if big_endian then bswap32 val else val

def host_to_le64 (big_endian : Bool) (val : Nat) : Nat :=
  if big_endian then bswap64 val else val

def le32_to_host (big_endian : Bool) (val : Nat) : Nat := host_to_le32 big_endian val

def le64_to_host (big_endian : Bool) (val : Nat) : Nat := host_to_le64 big_endian val

/-- The cast `static_cast<std::byte>(x)`. -/
def to_byte (x : Nat) : byte := Fin.ofNat x

structure byte_writer where
  buffer : byte_vec
deriving DecidableEq, Repr

def byte_writer.push_back (w : byte_writer) (b : byte) : byte_writer :=
  { buffer := w.buffer ++ [b] }

def byte_writer.write_u32 (big_endian : Bool) (w : byte_writer) (val : Nat) : byte_writer :=
  let val := host_to_le32 big_endian val
  let w := w.push_back (to_byte (val &&& 0xFF))
  let w := w.push_back (to_byte ((val >>> 8) &&& 0xFF))
  let w := w.push_back (to_byte ((val >>> 16) &&& 0xFF))
  w.push_back (to_byte ((val >>> 24) &&& 0xFF))

def byte_writer.write_u64 (big_endian : Bool) (w : byte_writer) (val : Nat) : byte_writer :=
  let val := host_to_le64 big_endian val
  (List.range 8).foldl (fun w i => w.push_back (to_byte ((val >>> (i * 8)) &&& 0xFF))) w

def byte_writer.write_bytes (w : byte_writer) (data : byte_vec) : byte_writer :=
  { buffer := w.buffer ++ data }

def byte_writer.write_string (w : byte_writer) (str : string) : byte_writer :=
  (str.foldl (fun w c => w.push_back c) w).push_back 0

structure byte_reader where
  buffer : byte_vec
  pos : Nat
deriving DecidableEq, Repr

/-- The read `(*buffer)[i]`: undefined outside the vector. -/
def byte_reader.at (r : byte_reader) (i : Nat) : Option Nat :=
  (r.buffer[i]?).map Fin.val

/-- The reader's `read_u32`, given the old value of `*out`. -/
def byte_reader.read_u32 (big_endian : Bool) (r : byte_reader) (out : Nat) :
    Option (kres_err × byte_reader × Nat) :=
  if (r.pos + 4) % 2 ^ 64 > r.buffer.length then some (KRES_ERROR_BUFFER_OVERFLOW, r, out)
  else do
    let b0 ← r.at r.pos
    let b1 ← r.at ((r.pos + 1) % 2 ^ 64)
    let b2 ← r.at ((r.pos + 2) % 2 ^ 64)
    let b3 ← r.at ((r.pos + 3) % 2 ^ 64)
    let out := b0 ||| (b1 <<< 8) ||| (b2 <<< 16) ||| (b3 <<< 24)
    let out := le32_to_host big_endian out
    some (KRES_OK, { r with pos := (r.pos + 4) % 2 ^ 64 }, out)

/-- The loop of `read_u64`: or the bytes at `pos + i`, for `i` from `i` up to 7,
into `out`. -/
def byte_reader.read_u64_loop (r : byte_reader) : Nat → Nat → Nat → Option Nat
  | 0, _, out => some out
  | n + 1, i, out => do
    let b ← r.at ((r.pos + i) % 2 ^ 64)
    byte_reader.read_u64_loop r n (i + 1) (out ||| (b <<< (i * 8)))

/-- The reader's `read_u64`, given the old value of `*out`. -/
def byte_reader.read_u64 (big_endian : Bool) (r : byte_reader) (out : Nat) :
    Option (kres_err × byte_reader × Nat) :=
  if (r.pos + 8) % 2 ^ 64 > r.buffer.length then some (KRES_ERROR_BUFFER_OVERFLOW, r, out)
  else do
    let out ← r.read_u64_loop 8 0 0
    let out := le64_to_host big_endian out
    some (KRES_OK, { r with pos := (r.pos + 8) % 2 ^ 64 }, out)

/-- The reader's `read_bytes`, given the old value of `*out`. The range
`[begin + pos, begin + pos + count)` handed to `assign` has to lie in the
buffer. -/
def byte_reader.read_bytes (r : byte_reader) (count : Nat) (out : byte_vec) :
    Option (kres_err × byte_reader × byte_vec) :=
  if (r.pos + count) % 2 ^ 64 > r.buffer.length then some (KRES_ERROR_BUFFER_OVERFLOW, r, out)
  else if r.pos + count ≤ r.buffer.length then
    some (KRES_OK, { r with pos := (r.pos + count) % 2 ^ 64 }, (r.buffer.drop r.pos).take count)
  else none

/-- The scanning loop of `read_string`; `fuel` bounds the number of steps by
the bytes that remain. -/
def byte_reader.read_string_loop (r : byte_reader) : Nat → Nat → string → Nat × string
  | 0, pos, out => (pos, out)
  | fuel + 1, pos, out =>
    match r.buffer[pos]? with
    | none => (pos, out)
    | some b => if b ≠ 0 then byte_reader.read_string_loop r fuel (pos + 1) (out ++ [b])
                else (pos, out)

def byte_reader.read_string (r : byte_reader) : kres_err × byte_reader × string :=
  let res := r.read_string_loop (r.buffer.length - r.pos) r.pos []
  let pos := if res.1 < r.buffer.length then res.1 + 1 else res.1
  (KRES_OK, { r with pos := pos }, res.2)

/-! ## main.h -/

/-- The packing `VERSION_ENCODE(maj, min, pat)` on 32-bit operands. -/
def VERSION_ENCODE (maj min pat : Nat) : Nat :=
  (((maj % 2 ^ 32) <<< 16) % 2 ^ 32) ||| (((min % 2 ^ 32) <<< 8) % 2 ^ 32) ||| (pat % 2 ^ 32)

def KRES_VERSION : Nat := VERSION_ENCODE 0 0 1

def KRES_MAGIC : Nat := 0x4B524553

structure version_t where
  major : Nat
  minor : Nat
  patch : Nat
deriving DecidableEq, Repr

def version_decode (version : Nat) : version_t :=
  { major := (version >>> 16) % 2 ^ 8
    minor := (version >>> 8) % 2 ^ 8
    patch := version % 2 ^ 8 }

structure entry where
  filename_len : Nat
  filename : string
  crc32 : Nat
  size : Nat
  data : byte_vec
deriving DecidableEq, Repr

structure header where
  magic : Nat
  version : Nat
  flags : Nat
  entry_count : Nat
  offset_table : List (Nat × Nat)
  user_section_size : Nat
  user_section : byte_vec
  filename_table : List (Nat × string)
deriving DecidableEq, Repr

/-- The default member initialisers of `header`. -/
def header_default : header :=
  { magic := KRES_MAGIC
    version := KRES_VERSION
    flags := 0
    entry_count := 0
    offset_table := []
    user_section_size := 0
    user_section := []
    filename_table := [] }

structure archive where
  raw_data : byte_vec
  header : kres.header
  entries : List entry
deriving DecidableEq, Repr

/-- The identifier of a filename: the 64-bit result of the external hash. -/
def generate_id (XXH3_64bits : string → Nat) (filename : string) : Nat :=
  XXH3_64bits filename % 2 ^ 64

/-- The helper `get_filename_ptr`: the length read at `offset` (`*len_out`), and
the index of the byte the returned pointer points at. The four reads are
unchecked in the source. -/
def get_filename_ptr (data : byte_vec) (offset : Nat) : Option (Nat × Nat) := do
  let b0 ← data[offset]?
  let b1 ← data[(offset + 1) % 2 ^ 64]?
  let b2 ← data[(offset + 2) % 2 ^ 64]?
  let b3 ← data[(offset + 3) % 2 ^ 64]?
  some (b0.val ||| (b1.val <<< 8) ||| (b2.val <<< 16) ||| (b3.val <<< 24), offset + 4)

/-- The call `s.assign(ptr, len)` on a pointer into `data`: the `len` bytes
from index `ptr` on, which have to lie in `data`. -/
def assign_from_ptr (data : byte_vec) (ptr len : Nat) : Option string :=
  if ptr + len ≤ data.length then some ((data.drop ptr).take len) else none

/-! ## main.cpp -/

def validate_entry (crc32 : byte_vec → Nat) (e : entry) : Bool :=
  let computed_crc := crc32 e.data % 2 ^ 32
  computed_crc == e.crc32

def serialize_archive (order : List (Nat × Nat) → List (Nat × Nat)) (big_endian : Bool)
    (arch : archive) (out : byte_vec) : kres_err × byte_vec :=
  let writer : byte_writer := { buffer := out }
  let writer := writer.write_u32 big_endian arch.header.magic
  let writer := writer.write_u32 big_endian arch.header.version
  let writer := writer.write_u32 big_endian arch.header.flags
  let writer := writer.write_u64 big_endian arch.header.entry_count
  let writer := (order arch.header.offset_table).foldl
    (fun w p => (w.write_u64 big_endian p.1).write_u64 big_endian p.2) writer
  let writer := writer.write_u64 big_endian arch.header.user_section_size
  let writer :=
    if arch.header.user_section_size > 0 then writer.write_bytes arch.header.user_section
    else writer
  let writer := arch.entries.foldl
    (fun w e =>
      let w := w.write_u32 big_endian e.filename_len
      let w := w.write_string e.filename
      let w := w.write_u32 big_endian e.crc32
      let w := w.write_u64 big_endian e.size
      w.write_bytes e.data) writer
  (KRES_OK, writer.buffer)

/-- The offset-table loop of `parse_header`, with `n` iterations left. -/
def parse_header_loop (big_endian : Bool) :
    Nat → byte_reader → header → Option (kres_err × byte_reader × header)
  | 0, r, h => some (KRES_OK, r, h)
  | n + 1, r, h =>
    match r.read_u64 big_endian 0 with
    | none => none
    | some (err, r, entry_id) =>
      if err ≠ KRES_OK then some (err, r, h)
      else
        match r.read_u64 big_endian 0 with
        | none => none
        | some (err, r, offset) =>
          if err ≠ KRES_OK then some (err, r, h)
          else
            parse_header_loop big_endian n r
              { h with offset_table := map_assign h.offset_table entry_id offset }

def parse_header (big_endian : Bool) (data : byte_vec) (h : header) :
    Option (kres_err × header) :=
  let reader : byte_reader := { buffer := data, pos := 0 }
  match reader.read_u32 big_endian h.magic with
  | none => none
  | some (err, reader, magic) =>
    let h := { h with magic := magic }
    if err ≠ KRES_OK then some (err, h)
    else if h.magic ≠ KRES_MAGIC then some (KRES_ERROR_INVALID_ARCHIVE, h)
    else
      match reader.read_u32 big_endian h.version with
      | none => none
      | some (err, reader, version) =>
        let h := { h with version := version }
        if err ≠ KRES_OK then some (err, h)
        else
          match reader.read_u32 big_endian h.flags with
          | none => none
          | some (err, reader, flags) =>
            let h := { h with flags := flags }
            if err ≠ KRES_OK then some (err, h)
            else
              match reader.read_u64 big_endian h.entry_count with
              | none => none
              | some (err, reader, entry_count) =>
                let h := { h with entry_count := entry_count }
                if err ≠ KRES_OK then some (err, h)
                else
                  match parse_header_loop big_endian h.entry_count reader h with
                  | none => none
                  | some (err, reader, h) =>
                    if err ≠ KRES_OK then some (err, h)
                    else
                      match reader.read_u64 big_endian h.user_section_size with
                      | none => none
                      | some (err, reader, user_section_size) =>
                        let h := { h with user_section_size := user_section_size }
                        if err ≠ KRES_OK then some (err, h)
                        else if h.user_section_size > 0 then
                          match reader.read_bytes h.user_section_size h.user_section with
                          | none => none
                          | some (err, _, user_section) =>
                            let h := { h with user_section := user_section }
                            if err ≠ KRES_OK then some (err, h) else some (KRES_OK, h)
                        else some (KRES_OK, h)

def validate_archive (big_endian : Bool) (data : byte_vec) : Option Bool :=
  match parse_header big_endian data header_default with
  | none => none
  | some (err, h) =>
    if err ≠ KRES_OK then some false
    else
      let v := version_decode h.version
      let current := version_decode KRES_VERSION
      some (h.magic == KRES_MAGIC && v.major == current.major)

def extract_entry_by_id (big_endian : Bool) (data : byte_vec) (h : header) (entry_id : Nat)
    (out : entry) : Option (kres_err × entry) :=
  match map_find h.offset_table entry_id with
  | none => some (KRES_ERROR_ENTRY_NOT_FOUND, out)
  | some offset =>
    match get_filename_ptr data offset with
    | none => none
    | some (filename_len, filename_ptr) =>
      let out := { out with filename_len := filename_len }
      match assign_from_ptr data filename_ptr filename_len with
      | none => none
      | some filename =>
        let out := { out with filename := filename }
        let reader : byte_reader :=
          { buffer := data, pos := (offset + 4 + filename_len + 1) % 2 ^ 64 }
        match reader.read_u32 big_endian out.crc32 with
        | none => none
        | some (err, reader, crc32) =>
          let out := { out with crc32 := crc32 }
          if err ≠ KRES_OK then some (err, out)
          else
            match reader.read_u64 big_endian out.size with
            | none => none
            | some (err, reader, size) =>
              let out := { out with size := size }
              if err ≠ KRES_OK then some (err, out)
              else
                match reader.read_bytes out.size out.data with
                | none => none
                | some (err, _, data) =>
                  let out := { out with data := data }
                  if err ≠ KRES_OK then some (err, out) else some (KRES_OK, out)

/-- The record size `4 + filename.length() + 1 + 4 + 8 + entry.size` added to
the running offset by `build_archive` and `make_header`. -/
def record_advance (e : entry) : Nat :=
  4 + e.filename.length + 1 + 4 + 8 + e.size

/-- The table-filling loop shared, statement for statement, by `build_archive`
and `make_header`. -/
def layout_loop (XXH3_64bits : string → Nat) :
    List entry → header → Nat → header
  | [], h, _ => h
  | e :: es, h, current_offset =>
    let entry_id := generate_id XXH3_64bits e.filename
    let h := { h with offset_table := map_assign h.offset_table entry_id current_offset }
    let h := { h with filename_table := map_assign h.filename_table entry_id e.filename }
    layout_loop XXH3_64bits es h ((current_offset + record_advance e) % 2 ^ 64)

def build_archive (XXH3_64bits : string → Nat) (order : List (Nat × Nat) → List (Nat × Nat))
    (big_endian : Bool) (entries : List entry) (out : archive) (user_data : Option byte_vec) :
    kres_err × archive :=
  let out := { out with entries := entries }
  let out := { out with header := { out.header with entry_count := entries.length % 2 ^ 64 } }
  let out :=
    match user_data with
    | some ud =>
      { out with header :=
          { out.header with user_section := ud, user_section_size := ud.length % 2 ^ 64 } }
    | none => { out with header := { out.header with user_section_size := 0 } }
  let header_size := 4 + 4 + 4 + 8
  let header_size := (header_size + entries.length * 16) % 2 ^ 64
  let header_size := (header_size + (8 + out.header.user_section_size)) % 2 ^ 64
  let current_offset := header_size
  let out := { out with header := layout_loop XXH3_64bits entries out.header current_offset }
  let res := serialize_archive order big_endian out out.raw_data
  (res.1, { out with raw_data := res.2 })

def extract_entry_by_name (XXH3_64bits : string → Nat) (big_endian : Bool) (data : byte_vec)
    (h : header) (filename : string) (out : entry) : Option (kres_err × entry) :=
  let entry_id := generate_id XXH3_64bits filename
  extract_entry_by_id big_endian data h entry_id out

/-- The function `extract_filename`, given the old values of `*filename_out`
and `*len_out`. -/
def extract_filename (data : byte_vec) (h : header) (entry_id : Nat)
    (filename_out : string) (len_out : Nat) : Option (kres_err × string × Nat) :=
  match map_find h.offset_table entry_id with
  | none => some (KRES_ERROR_ENTRY_NOT_FOUND, filename_out, len_out)
  | some offset =>
    match get_filename_ptr data offset with
    | none => none
    | some (len, filename_ptr) =>
      match assign_from_ptr data filename_ptr len with
      | none => none
      | some filename => some (KRES_OK, filename, len)

def init_archive : archive :=
  { raw_data := [], header := header_default, entries := [] }

/-- The function `make_header` on a non-null archive. -/
def make_header (XXH3_64bits : string → Nat) (ar : archive) : kres_err × archive :=
  let tmp_header : header :=
    { header_default with
      flags := ar.header.flags
      version := ar.header.version
      user_section_size := ar.header.user_section_size
      user_section := ar.header.user_section
      entry_count := ar.entries.length % 2 ^ 64 }
  let header_size := 4 + 4 + 4 + 8
  let header_size := (header_size + ar.entries.length * 16) % 2 ^ 64
  let header_size := (header_size + (8 + ar.header.user_section_size)) % 2 ^ 64
  let current_offset := header_size
  let ar := { ar with header := layout_loop XXH3_64bits ar.entries ar.header current_offset }
  let ar := { ar with header := tmp_header }
  (KRES_OK, ar)

/-- The function `append_entry(archive*, const entry&)` on a non-null archive.
The read `ar->entries[e_id]` is undefined outside the vector. -/
def append_entry (XXH3_64bits : string → Nat) (ar : archive) (e : entry) :
    Option (kres_err × archive) :=
  let e_id := generate_id XXH3_64bits e.filename
  if map_contains ar.header.offset_table e_id then
    match ar.entries[e_id]? with
    | none => none
    | some stored =>
      if stored.data = e.data then some (KRES_ERROR_DUPLICATE_ENTRY, ar)
      else some (KRES_ERROR_DUPLICATE_ENTRY, ar)
  else
    let ar := { ar with entries := ar.entries ++ [e] }
    some (make_header XXH3_64bits ar)

def set_user_data (XXH3_64bits : string → Nat) (ar : archive) (ud : byte_vec) :
    kres_err × archive :=
  let ar :=
    { ar with header :=
        { ar.header with user_section_size := ud.length % 2 ^ 64, user_section := ud } }
  make_header XXH3_64bits ar

/-! ## utility.h and main.cpp: the streaming reader -/

/-- The integer value of an enumerator of `kres_err`. -/
def kres_err.to_int : kres_err → Int
  | KRES_INVALID_STATE => -1
  | KRES_OK => 0
  | KRES_ERROR_BUFFER_OVERFLOW => 1
  | KRES_ERROR_INVALID_ARCHIVE => 2
  | KRES_ERROR_INVALID_ARCHIVE_FILE => 3
  | KRES_ERROR_MISMATCHED_VERSION => 4
  | KRES_ERROR_ENTRY_NOT_FOUND => 5
  | KRES_ERROR_DUPLICATE_ENTRY => 6
  | KRES_ERROR_ENTRY_CORRUPTED => 7
  | KRES_ERROR_FAILED_IO => 8
  | KRES_ERROR_EOF => 9
  | KRES_ERROR_INVALID_INPUT_FILE => 10

/-- The test `!err` on a `kres_err`: true exactly for the enumerator of value
zero. -/
def kres_err.lnot (err : kres_err) : Bool := err.to_int == 0

/-- Modelled standard library: what `std::filesystem` and `std::ifstream` find
at a path. `can_open` tells whether opening the file for reading succeeds, and
`contents` are the bytes of the file. -/
structure path_state where
  is_regular_file : Bool
  path_exists : Bool
  can_open : Bool
  contents : byte_vec
deriving DecidableEq, Repr

/-- Modelled standard library: the state of a `std::ifstream` opened in binary
mode. Device errors (`badbit`) are left out. -/
structure ifstream where
  is_open : Bool
  contents : byte_vec
  pos : Nat
  eofbit : Bool
  failbit : Bool
  gcount : Nat
deriving DecidableEq, Repr

/-- Modelled standard library: a default-constructed `std::ifstream`. -/
def ifstream_default : ifstream :=
  { is_open := false, contents := [], pos := 0, eofbit := false, failbit := false, gcount := 0 }

/-- Modelled standard library: `ifstream::open`. A failed open sets `failbit`,
a successful one clears the state. -/
def ifstream.open (f : ifstream) (p : path_state) : ifstream :=
  if f.is_open then { f with failbit := true }
  else if p.is_regular_file && p.path_exists && p.can_open then
    { is_open := true, contents := p.contents, pos := 0, eofbit := false, failbit := false,
      gcount := f.gcount }
  else { f with failbit := true }

/-- Modelled standard library: `ifstream::read(buf, n)`, with the bytes stored
into `buf`. A stream that is not good reads nothing and sets `failbit`; a read
that meets the end of the file stores what is left and sets `eofbit` and
`failbit`. A stream that is not open has nothing to read. -/
def ifstream.read (f : ifstream) (n : Nat) : ifstream × byte_vec :=
  if f.eofbit || f.failbit then ({ f with failbit := true, gcount := 0 }, [])
  else
    let got := if f.is_open then (f.contents.drop f.pos).take n else []
    if got.length < n then
      ({ f with pos := f.pos + got.length, eofbit := true, failbit := true,
                gcount := got.length }, got)
    else ({ f with pos := f.pos + n, gcount := n }, got)

/-- Modelled standard library: `ifstream::eof`. -/
def ifstream.eof (f : ifstream) : Bool := f.eofbit

structure file_reader where
  file : ifstream
deriving DecidableEq, Repr

def file_reader.open (r : file_reader) (path : path_state) : kres_err × file_reader :=
  let file := r.file.open path
  if !file.is_open then (KRES_ERROR_INVALID_INPUT_FILE, { file := file })
  else (KRES_OK, { file := file })

/-- The element `buf[i]` of the local array that a read filled. -/
def buf_at (buf : byte_vec) (i : Nat) : Nat := (buf.getD i 0).val

/-- The file reader's `read_u32`, given the old value of `*out`. -/
def file_reader.read_u32 (big_endian : Bool) (r : file_reader) (out : Nat) :
    kres_err × file_reader × Nat :=
  let res := r.file.read 4
  let file := res.1
  let buf := res.2
  if file.gcount ≠ 4 then
    (if file.eof then KRES_ERROR_EOF else KRES_ERROR_FAILED_IO, { file := file }, out)
  else
    let out := buf_at buf 0 ||| (buf_at buf 1 <<< 8) ||| (buf_at buf 2 <<< 16) |||
      (buf_at buf 3 <<< 24)
    let out := le32_to_host big_endian out
    (KRES_OK, { file := file }, out)

/-- The file reader's `read_u64`, given the old value of `*out`. -/
def file_reader.read_u64 (big_endian : Bool) (r : file_reader) (out : Nat) :
    kres_err × file_reader × Nat :=
  let res := r.file.read 8
  let file := res.1
  let buf := res.2
  if file.gcount ≠ 8 then
    (if file.eof then KRES_ERROR_EOF else KRES_ERROR_FAILED_IO, { file := file }, out)
  else
    let out := (List.range 8).foldl (fun out i => out ||| (buf_at buf i <<< (i * 8))) 0
    let out := le64_to_host big_endian out
    (KRES_OK, { file := file }, out)

/-- The file reader's `read_bytes`, given the old value of `*out`: the output is
resized to `count`, filled, and cut back to the bytes read when they are fewer. -/
def file_reader.read_bytes (r : file_reader) (count : Nat) (_out : byte_vec) :
    kres_err × file_reader × byte_vec :=
  let res := r.file.read count
  let file := res.1
  let out := res.2
  let read := file.gcount
  if read ≠ count then
    (if file.eof then KRES_ERROR_EOF else KRES_ERROR_FAILED_IO, { file := file }, out)
  else (KRES_OK, { file := file }, out)

/-- The offset-table loop of `preload_archive` with `n` iterations left: the
value returned from inside the loop, if any, with the reader and the header.
Each `if (!err) return err;` returns when the read succeeded. When both reads
of an iteration fail, the assignment `h.offset_table[e_id] = offset` uses the
two locals uninitialised, which is undefined (`none`). -/
def preload_archive_loop (big_endian : Bool) :
    Nat → file_reader → header → Option (Option kres_err × file_reader × header)
  | 0, r, h => some (none, r, h)
  | _ + 1, r, h =>
    let res := r.read_u64 big_endian 0
    let err := res.1
    let r := res.2.1
    if err.lnot then some (some err, r, h)
    else
      let res := r.read_u64 big_endian 0
      let err := res.1
      let r := res.2.1
      if err.lnot then some (some err, r, h)
      else none

/-- The function `preload_archive` on a non-null archive. The header is read
into the local `h`; no statement of the source stores into `*ar`. -/
def preload_archive (big_endian : Bool) (ar : archive) (filename : path_state) :
    Option (kres_err × archive) :=
  let h := header_default
  let r : file_reader := { file := ifstream_default }
  if !filename.is_regular_file || !filename.path_exists then
    some (KRES_ERROR_INVALID_ARCHIVE_FILE, ar)
  else
    let res := r.open filename
    let err := res.1
    let r := res.2
    if err.lnot then some (err, ar)
    else
      let res := r.read_u32 big_endian h.magic
      let err := res.1
      let r := res.2.1
      let h := { h with magic := res.2.2 }
      if err.lnot then some (err, ar)
      else if h.magic ≠ KRES_MAGIC then some (KRES_ERROR_INVALID_ARCHIVE, ar)
      else
        let res := r.read_u32 big_endian h.version
        let err := res.1
        let r := res.2.1
        let h := { h with version := res.2.2 }
        if err.lnot then some (err, ar)
        else
          let res := r.read_u32 big_endian h.flags
          let err := res.1
          let r := res.2.1
          let h := { h with flags := res.2.2 }
          if err.lnot then some (err, ar)
          else
            let res := r.read_u64 big_endian h.entry_count
            let err := res.1
            let r := res.2.1
            let h := { h with entry_count := res.2.2 }
            if err.lnot then some (err, ar)
            else
              match preload_archive_loop big_endian h.entry_count r h with
              | none => none
              | some (some err, _, _) => some (err, ar)
              | some (none, r, h) =>
                let res := r.read_u64 big_endian h.user_section_size
                let err := res.1
                let r := res.2.1
                let h := { h with user_section_size := res.2.2 }
                if err.lnot then some (err, ar)
                else if h.user_section_size > 0 then
                  let res := r.read_bytes h.user_section_size h.user_section
                  let err := res.1
                  if err.lnot then some (err, ar) else some (KRES_OK, ar)
                else some (KRES_OK, ar)

/-- The overload `validate_archive(const string& filename)`. -/
def validate_archive_filename (big_endian : Bool) (filename : path_state) : Option Bool :=
  let ar : archive := init_archive
  match preload_archive big_endian ar filename with
  | none => none
  | some (err, ar) =>
    if err.lnot then some false
    else
      let v := version_decode ar.header.version
      let current := version_decode KRES_VERSION
      some (ar.header.magic == KRES_MAGIC && v.major == current.major)

/-! ## Wire encodings and sample data used by the theorems -/

/-- The `n` low bytes of `v`, least significant first. -/
def le_bytes : Nat → Nat → byte_vec
  | 0, _ => []
  | n + 1, v => to_byte v :: le_bytes n (v / 256)

/-- The number whose little-endian digits are the given bytes. -/
def le_value : byte_vec → Nat
  | [] => 0
  | b :: bs => b.val + 256 * le_value bs
/-- The sixteen bytes of one offset-table pair on the wire. -/
def pair_bytes (big_endian : Bool) (p : Nat × Nat) : byte_vec :=
  le_bytes 8 (host_to_le64 big_endian p.1) ++ le_bytes 8 (host_to_le64 big_endian p.2)

/-- The bytes of a sequence of offset-table pairs on the wire. -/
def table_bytes (big_endian : Bool) : List (Nat × Nat) → byte_vec
  | [] => []
  | p :: l => pair_bytes big_endian p ++ table_bytes big_endian l

/-- The bytes of a header on the wire, its table taken in the order `order`. -/
def header_bytes (order : List (Nat × Nat) → List (Nat × Nat)) (big_endian : Bool)
    (h : header) : byte_vec :=
  le_bytes 4 (host_to_le32 big_endian h.magic) ++
    (le_bytes 4 (host_to_le32 big_endian h.version) ++
      (le_bytes 4 (host_to_le32 big_endian h.flags) ++
        (le_bytes 8 (host_to_le64 big_endian h.entry_count) ++
          (table_bytes big_endian (order h.offset_table) ++
            (le_bytes 8 (host_to_le64 big_endian h.user_section_size) ++
              (if h.user_section_size > 0 then h.user_section else []))))))

/-- The bytes of one entry record on the wire. -/
def record_bytes (big_endian : Bool) (e : entry) : byte_vec :=
  le_bytes 4 (host_to_le32 big_endian e.filename_len) ++
    (e.filename ++
      (([0] : byte_vec) ++
        (le_bytes 4 (host_to_le32 big_endian e.crc32) ++
          (le_bytes 8 (host_to_le64 big_endian e.size) ++ e.data))))

/-- The bytes of a sequence of entry records on the wire. -/
def entries_bytes (big_endian : Bool) : List entry → byte_vec
  | [] => []
  | e :: es => record_bytes big_endian e ++ entries_bytes big_endian es
/-- The pairs that the layout loop records for a list of entries whose ids are
new to the table: each id with the running offset at which the loop meets it. -/
def layout_pairs (XXH3_64bits : string → Nat) : List entry → Nat → List (Nat × Nat)
  | [], _ => []
  | e :: es, current_offset =>
    (generate_id XXH3_64bits e.filename, current_offset) ::
      layout_pairs XXH3_64bits es ((current_offset + record_advance e) % 2 ^ 64)
/-- A stand-in for the external hash on concrete inputs: a polynomial digest of
the bytes, wider than 64 bits on long names. -/
def sample_hash (s : string) : Nat :=
  s.foldl (fun acc c => acc * 257 + c.val + 1) 7

/-- The entry `("t.x", "hello")` with its fields filled in as the tests do. -/
def sample_e1 : entry :=
  { filename_len := 3, filename := [116, 46, 120], crc32 := 0x3610A686, size := 5,
    data := [104, 101, 108, 108, 111] }

/-- The entry `("f", "foo")` with its fields filled in as the tests do. -/
def sample_e2 : entry :=
  { filename_len := 1, filename := [102], crc32 := 0x8C736521, size := 3,
    data := [102, 111, 111] }
/-- An archive holding the single entry `sample_e1`, whose offset table holds
that entry's id, for the hash `XXH3_64bits`. -/
def sample_archive (XXH3_64bits : string → Nat) : archive :=
  { raw_data := []
    header :=
      { header_default with
        entry_count := 1
        offset_table := [(generate_id XXH3_64bits sample_e1.filename, 44)]
        filename_table := [(generate_id XXH3_64bits sample_e1.filename, sample_e1.filename)] }
    entries := [sample_e1] }

/-- A hash that sends every name to `0`, so that the id of a name is a valid
position in a non-empty entry sequence. -/
def zero_hash (_ : string) : Nat := 0
/-- The entry `("t.x", "foo")`: the filename of `sample_e1` with another payload. -/
def sample_e3 : entry :=
  { filename_len := 3, filename := [116, 46, 120], crc32 := 0x8C736521, size := 3,
    data := [102, 111, 111] }
/-- The value that a successful `read_u32` at position `p` of `data` returns. -/
def peek_u32 (big_endian : Bool) (data : byte_vec) (p : Nat) : Nat :=
  le32_to_host big_endian (le_value ((data.drop p).take 4))

/-- The value that a successful `read_u64` at position `p` of `data` returns. -/
def peek_u64 (big_endian : Bool) (data : byte_vec) (p : Nat) : Nat :=
  le64_to_host big_endian (le_value ((data.drop p).take 8))
/-- The bytes of the archive built from `sample_e1` and the user data `[7, 9]`:
a header of 46 bytes followed by one record. -/
def sample_bytes : byte_vec :=
  (build_archive sample_hash List.reverse false [sample_e1] init_archive (some [7, 9])).2.raw_data

/-- The header that `sample_bytes` starts with. -/
def sample_header : header :=
  { header_default with
    entry_count := 1
    offset_table := [(generate_id sample_hash sample_e1.filename, 46)]
    user_section_size := 2
    user_section := [7, 9] }
/-- A header of 28 bytes on a little-endian host: the magic, version 1, flags 0,
no entries, and the user section size `2^64 - 1`. -/
def wrap_bytes : byte_vec :=
  [0x53, 0x45, 0x52, 0x4B, 1, 0, 0, 0, 0, 0, 0, 0,
   0, 0, 0, 0, 0, 0, 0, 0,
   255, 255, 255, 255, 255, 255, 255, 255]

/-- A header whose offset table sends the id of the name of `sample_e1` to
offset `0`. -/
def collide_header (XXH3_64bits : string → Nat) : header :=
  { header_default with
    entry_count := 1
    offset_table := [(generate_id XXH3_64bits sample_e1.filename, 0)] }

/-- A path that names no file. -/
def no_file : path_state :=
  { is_regular_file := false, path_exists := false, can_open := false, contents := [] }

/-- A regular file with the given contents that can be opened. -/
def regular_file (contents : byte_vec) : path_state :=
  { is_regular_file := true, path_exists := true, can_open := true, contents := contents }
/-- A hash that sends the name `"t.x"` to `1` and every other name to `0`. -/
def small_hash (s : string) : Nat := if s = [116, 46, 120] then 1 else 0

/-! ## Integer codec: bytes, byte swaps and host conversion -/

theorem or_shl (x b k : Nat) (hx : x < 2 ^ k) : x ||| (b <<< k) = x + b * 2 ^ k := by
  rw [Nat.shiftLeft_eq, Nat.lor_comm, Nat.mul_comm b, ← Nat.mul_add_lt_is_or hx, Nat.add_comm]

theorem and_255 (x : Nat) : x &&& 0xFF = x % 256 := by
  have := Nat.and_pow_two_sub_one_eq_mod x 8
  simpa using this

theorem to_byte_val (x : Nat) : (to_byte x).val = x % 256 := rfl

theorem to_byte_mod (x : Nat) : to_byte (x % 256) = to_byte x := by
  apply Fin.ext; simp [to_byte_val]

theorem le_bytes_length (n v : Nat) : (le_bytes n v).length = n := by
  induction n generalizing v with
  | zero => rfl
  | succ n ih => simp [le_bytes, ih]

theorem le_value_lt (bs : byte_vec) : le_value bs < 256 ^ bs.length := by
  induction bs with
  | nil => simp [le_value]
  | cons b bs ih =>
    have hb := b.isLt
    simp only [le_value, List.length_cons, pow_succ]
    omega

theorem le_value_le_bytes (n v : Nat) : le_value (le_bytes n v) = v % 256 ^ n := by
  induction n generalizing v with
  | zero => simp [le_bytes, le_value, Nat.mod_one]
  | succ n ih =>
    simp only [le_bytes, le_value, ih, to_byte_val]
    rw [pow_succ, Nat.mul_comm (256 ^ n) 256, Nat.mod_mul]

theorem write_u32_buffer (be : Bool) (w : byte_writer) (v : Nat) :
    (w.write_u32 be v).buffer = w.buffer ++ le_bytes 4 (host_to_le32 be v) := by
  simp only [byte_writer.write_u32, byte_writer.push_back, le_bytes, and_255,
    Nat.shiftRight_eq_div_pow, to_byte_mod, List.append_assoc, List.cons_append, List.nil_append]
  simp [Nat.div_div_eq_div_mul]

theorem write_u64_buffer (be : Bool) (w : byte_writer) (v : Nat) :
    (w.write_u64 be v).buffer = w.buffer ++ le_bytes 8 (host_to_le64 be v) := by
  simp only [byte_writer.write_u64, byte_writer.push_back, le_bytes, and_255,
    Nat.shiftRight_eq_div_pow, to_byte_mod, List.range, List.range.loop, List.foldl,
    List.append_assoc, List.cons_append, List.nil_append]
  simp [Nat.div_div_eq_div_mul]

theorem lor_add (a b k : Nat) (hb : b < 2 ^ k) (ha : 2 ^ k ∣ a) : a ||| b = a + b := by
  obtain ⟨c, rfl⟩ := ha
  exact (Nat.mul_add_lt_is_or hb c).symm

theorem bswap32_arith (v : Nat) : bswap32 v =
    (v % 256) * 16777216 + (v / 256 % 256) * 65536 + (v / 65536 % 256) * 256 +
      v / 16777216 % 256 := by
  unfold bswap32
  simp only [and_255, Nat.shiftRight_eq_div_pow, Nat.shiftLeft_eq]
  norm_num
  have hb : v / 256 % 256 < 256 := Nat.mod_lt _ (by norm_num)
  have hc : v / 65536 % 256 < 256 := Nat.mod_lt _ (by norm_num)
  have hd : v / 16777216 % 256 < 256 := Nat.mod_lt _ (by norm_num)
  generalize v % 256 = a at *
  generalize v / 256 % 256 = b at *
  generalize v / 65536 % 256 = c at *
  generalize v / 16777216 % 256 = d at *
  rw [lor_add (a * 16777216) (b * 65536) 24 (by omega) (by omega),
    lor_add (a * 16777216 + b * 65536) (c * 256) 16 (by omega) (by omega),
    lor_add _ d 8 (by omega) (by omega)]

theorem bswap32_lt (v : Nat) : bswap32 v < 2 ^ 32 := by
  rw [bswap32_arith]; omega

theorem digits4 (a b c d : Nat) (ha : a < 256) (hb : b < 256) (hc : c < 256) (hd : d < 256) :
    (a * 16777216 + b * 65536 + c * 256 + d) % 256 = d ∧
    (a * 16777216 + b * 65536 + c * 256 + d) / 256 % 256 = c ∧
    (a * 16777216 + b * 65536 + c * 256 + d) / 65536 % 256 = b ∧
    (a * 16777216 + b * 65536 + c * 256 + d) / 16777216 % 256 = a := by
  refine ⟨by omega, by omega, by omega, by omega⟩

theorem bswap32_bswap32 (v : Nat) (hv : v < 2 ^ 32) : bswap32 (bswap32 v) = v := by
  rw [bswap32_arith (bswap32 v), bswap32_arith v]
  have h0 : v = v % 256 + 256 * (v / 256 % 256) + 65536 * (v / 65536 % 256) +
      16777216 * (v / 16777216 % 256) := by omega
  have ha : v % 256 < 256 := by omega
  have hb : v / 256 % 256 < 256 := by omega
  have hc : v / 65536 % 256 < 256 := by omega
  have hd : v / 16777216 % 256 < 256 := by omega
  generalize v % 256 = a at *
  generalize v / 256 % 256 = b at *
  generalize v / 65536 % 256 = c at *
  generalize v / 16777216 % 256 = d at *
  obtain ⟨h1, h2, h3, h4⟩ := digits4 a b c d ha hb hc hd
  rw [h1, h2, h3, h4]
  omega
theorem bswap64_arith (v : Nat) : bswap64 v =
    (v % 256) * 72057594037927936 + (v / 256 % 256) * 281474976710656 +
      (v / 65536 % 256) * 1099511627776 + (v / 16777216 % 256) * 4294967296 +
      (v / 4294967296 % 256) * 16777216 + (v / 1099511627776 % 256) * 65536 +
      (v / 281474976710656 % 256) * 256 + v / 72057594037927936 % 256 := by
  unfold bswap64
  simp only [and_255, Nat.shiftRight_eq_div_pow, Nat.shiftLeft_eq]
  norm_num
  have h1 : v / 256 % 256 < 256 := Nat.mod_lt _ (by norm_num)
  have h2 : v / 65536 % 256 < 256 := Nat.mod_lt _ (by norm_num)
  have h3 : v / 16777216 % 256 < 256 := Nat.mod_lt _ (by norm_num)
  have h4 : v / 4294967296 % 256 < 256 := Nat.mod_lt _ (by norm_num)
  have h5 : v / 1099511627776 % 256 < 256 := Nat.mod_lt _ (by norm_num)
  have h6 : v / 281474976710656 % 256 < 256 := Nat.mod_lt _ (by norm_num)
  have h7 : v / 72057594037927936 % 256 < 256 := Nat.mod_lt _ (by norm_num)
  generalize v % 256 = a0 at *
  generalize v / 256 % 256 = a1 at *
  generalize v / 65536 % 256 = a2 at *
  generalize v / 16777216 % 256 = a3 at *
  generalize v / 4294967296 % 256 = a4 at *
  generalize v / 1099511627776 % 256 = a5 at *
  generalize v / 281474976710656 % 256 = a6 at *
  generalize v / 72057594037927936 % 256 = a7 at *
  rw [lor_add _ (a1 * 281474976710656) 56 (by omega) (by omega),
    lor_add _ (a2 * 1099511627776) 48 (by omega) (by omega),
    lor_add _ (a3 * 4294967296) 40 (by omega) (by omega),
    lor_add _ (a4 * 16777216) 32 (by omega) (by omega),
    lor_add _ (a5 * 65536) 24 (by omega) (by omega),
    lor_add _ (a6 * 256) 16 (by omega) (by omega),
    lor_add _ a7 8 (by omega) (by omega)]

theorem bswap64_lt (v : Nat) : bswap64 v < 2 ^ 64 := by
  rw [bswap64_arith]; omega

theorem digits8 (a0 a1 a2 a3 a4 a5 a6 a7 : Nat) (h0 : a0 < 256) (h1 : a1 < 256)
    (h2 : a2 < 256) (h3 : a3 < 256) (h4 : a4 < 256) (h5 : a5 < 256) (h6 : a6 < 256)
    (h7 : a7 < 256) (w : Nat)
    (hw : w = a0 * 72057594037927936 + a1 * 281474976710656 + a2 * 1099511627776 +
      a3 * 4294967296 + a4 * 16777216 + a5 * 65536 + a6 * 256 + a7) :
    w % 256 = a7 ∧ w / 256 % 256 = a6 ∧ w / 65536 % 256 = a5 ∧ w / 16777216 % 256 = a4 ∧
    w / 4294967296 % 256 = a3 ∧ w / 1099511627776 % 256 = a2 ∧
    w / 281474976710656 % 256 = a1 ∧ w / 72057594037927936 % 256 = a0 := by
  refine ⟨by omega, by omega, by omega, by omega, by omega, by omega, by omega, by omega⟩

theorem bswap64_bswap64 (v : Nat) (hv : v < 2 ^ 64) : bswap64 (bswap64 v) = v := by
  rw [bswap64_arith (bswap64 v), bswap64_arith v]
  have h : v = v % 256 + 256 * (v / 256 % 256) + 65536 * (v / 65536 % 256) +
      16777216 * (v / 16777216 % 256) + 4294967296 * (v / 4294967296 % 256) +
      1099511627776 * (v / 1099511627776 % 256) +
      281474976710656 * (v / 281474976710656 % 256) +
      72057594037927936 * (v / 72057594037927936 % 256) := by omega
  have h0 : v % 256 < 256 := Nat.mod_lt _ (by norm_num)
  have h1 : v / 256 % 256 < 256 := Nat.mod_lt _ (by norm_num)
  have h2 : v / 65536 % 256 < 256 := Nat.mod_lt _ (by norm_num)
  have h3 : v / 16777216 % 256 < 256 := Nat.mod_lt _ (by norm_num)
  have h4 : v / 4294967296 % 256 < 256 := Nat.mod_lt _ (by norm_num)
  have h5 : v / 1099511627776 % 256 < 256 := Nat.mod_lt _ (by norm_num)
  have h6 : v / 281474976710656 % 256 < 256 := Nat.mod_lt _ (by norm_num)
  have h7 : v / 72057594037927936 % 256 < 256 := Nat.mod_lt _ (by norm_num)
  generalize v % 256 = a0 at *
  generalize v / 256 % 256 = a1 at *
  generalize v / 65536 % 256 = a2 at *
  generalize v / 16777216 % 256 = a3 at *
  generalize v / 4294967296 % 256 = a4 at *
  generalize v / 1099511627776 % 256 = a5 at *
  generalize v / 281474976710656 % 256 = a6 at *
  generalize v / 72057594037927936 % 256 = a7 at *
  obtain ⟨e0, e1, e2, e3, e4, e5, e6, e7⟩ := digits8 a0 a1 a2 a3 a4 a5 a6 a7 h0 h1 h2 h3 h4 h5 h6 h7 _ rfl
  rw [e0, e1, e2, e3, e4, e5, e6, e7]
  omega

theorem host_to_le32_lt (be : Bool) (v : Nat) (hv : v < 2 ^ 32) : host_to_le32 be v < 2 ^ 32 := by
  unfold host_to_le32; split
  · exact bswap32_lt v
  · exact hv

theorem host_to_le32_invol (be : Bool) (v : Nat) (hv : v < 2 ^ 32) :
    host_to_le32 be (host_to_le32 be v) = v := by
  unfold host_to_le32; split
  · exact bswap32_bswap32 v hv
  · rfl

theorem host_to_le64_lt (be : Bool) (v : Nat) (hv : v < 2 ^ 64) : host_to_le64 be v < 2 ^ 64 := by
  unfold host_to_le64; split
  · exact bswap64_lt v
  · exact hv

theorem host_to_le64_invol (be : Bool) (v : Nat) (hv : v < 2 ^ 64) :
    host_to_le64 be (host_to_le64 be v) = v := by
  unfold host_to_le64; split
  · exact bswap64_bswap64 v hv
  · rfl

/-- What a 32-bit value written by `write_u32` decodes to. -/
theorem decode_le_bytes32 (be : Bool) (v : Nat) (hv : v < 2 ^ 32) :
    le32_to_host be (le_value (le_bytes 4 (host_to_le32 be v))) = v := by
  rw [le_value_le_bytes, Nat.mod_eq_of_lt (by simpa using host_to_le32_lt be v hv)]
  exact host_to_le32_invol be v hv

theorem decode_le_bytes64 (be : Bool) (v : Nat) (hv : v < 2 ^ 64) :
    le64_to_host be (le_value (le_bytes 8 (host_to_le64 be v))) = v := by
  rw [le_value_le_bytes, Nat.mod_eq_of_lt (by simpa using host_to_le64_lt be v hv)]
  exact host_to_le64_invol be v hv

/-! ## Reads that fit the buffer -/

theorem drop_step (data : byte_vec) (p : Nat) (bs rest : byte_vec)
    (h : data.drop p = bs ++ rest) : data.drop (p + bs.length) = rest := by
  rw [← List.drop_drop, h, List.drop_left]

theorem drop_bound (data : byte_vec) (p : Nat) (bs rest : byte_vec)
    (h : data.drop p = bs ++ rest) (hne : 0 < bs.length) : p + bs.length ≤ data.length := by
  have h1 := congrArg List.length h
  simp only [List.length_drop, List.length_append] at h1
  omega

theorem at_of_drop (data : byte_vec) (p : Nat) (bs rest : byte_vec)
    (h : data.drop p = bs ++ rest) (i : Nat) (hi : i < bs.length) :
    byte_reader.at ⟨data, p⟩ (p + i) = some (bs.get ⟨i, hi⟩).val := by
  have h1 : (data.drop p)[i]? = (bs ++ rest)[i]? := by rw [h]
  rw [List.getElem?_drop, List.getElem?_append_left hi, List.getElem?_eq_getElem hi] at h1
  simp [byte_reader.at, h1]

theorem read_u32_ok (be : Bool) (data : byte_vec) (p out : Nat) (bs rest : byte_vec)
    (h : data.drop p = bs ++ rest) (hl : bs.length = 4) (hfit : data.length < 2 ^ 64) :
    byte_reader.read_u32 be ⟨data, p⟩ out =
      some (KRES_OK, ⟨data, p + 4⟩, le32_to_host be (le_value bs)) := by
  have hb := drop_bound data p bs rest h (by omega)
  match bs, hl with
  | [b0, b1, b2, b3], _ =>
    have e0 := at_of_drop data p _ rest h 0 (by simp)
    have e1 := at_of_drop data p _ rest h 1 (by simp)
    have e2 := at_of_drop data p _ rest h 2 (by simp)
    have e3 := at_of_drop data p _ rest h 3 (by simp)
    simp only [List.length_cons, List.length_nil] at hb
    have m1 : (p + 1) % 2 ^ 64 = p + 1 := Nat.mod_eq_of_lt (by omega)
    have m2 : (p + 2) % 2 ^ 64 = p + 2 := Nat.mod_eq_of_lt (by omega)
    have m3 : (p + 3) % 2 ^ 64 = p + 3 := Nat.mod_eq_of_lt (by omega)
    have m4 : (p + 4) % 2 ^ 64 = p + 4 := Nat.mod_eq_of_lt (by omega)
    have hnot : ¬ (p + 4 > data.length) := by omega
    simp only [byte_reader.read_u32, m1, m2, m3, m4, hnot, if_false]
    simp only [Nat.add_zero] at e0
    rw [e0, e1, e2, e3]
    simp only [List.get_eq_getElem, List.getElem_cons_zero, List.getElem_cons_succ, Option.bind_eq_bind, Option.some_bind, le_value]
    have h0 := b0.isLt
    have h1 := b1.isLt
    have h2 := b2.isLt
    have h3 := b3.isLt
    rw [or_shl _ _ 8 (by omega), or_shl _ _ 16 (by omega), or_shl _ _ 24 (by omega)]
    congr 4
    omega

theorem read_u32_overflow (be : Bool) (data : byte_vec) (p out : Nat)
    (h : data.length < p + 4) (hp : p + 4 < 2 ^ 64) :
    byte_reader.read_u32 be ⟨data, p⟩ out = some (KRES_ERROR_BUFFER_OVERFLOW, ⟨data, p⟩, out) := by
  have m4 : (p + 4) % 2 ^ 64 = p + 4 := Nat.mod_eq_of_lt hp
  simp only [byte_reader.read_u32, m4]
  rw [if_pos h]
theorem read_u64_loop_ok (data : byte_vec) (p : Nat) :
    ∀ (bs rest : byte_vec) (i out : Nat), data.drop (p + i) = bs ++ rest →
      p + i + bs.length ≤ 2 ^ 64 → out < 2 ^ (8 * i) →
      byte_reader.read_u64_loop ⟨data, p⟩ bs.length i out =
        some (out + le_value bs * 2 ^ (8 * i)) := by
  intro bs
  induction bs with
  | nil => intro rest i out _ _ _; simp [byte_reader.read_u64_loop, le_value]
  | cons b bs ih =>
    intro rest i out h hle hout
    have hat : byte_reader.at ⟨data, p⟩ (p + i) = some b.val := by
      have h1 : (data.drop (p + i))[0]? = ((b :: bs) ++ rest)[0]? := by rw [h]
      rw [List.getElem?_drop] at h1
      simp at h1
      simp [byte_reader.at, h1]
    simp only [List.length_cons] at hle
    have hm : (p + i) % 2 ^ 64 = p + i := Nat.mod_eq_of_lt (by omega)
    have hnext : data.drop (p + (i + 1)) = bs ++ rest := by
      have := drop_step data (p + i) [b] (bs ++ rest) (by simpa using h)
      simpa [Nat.add_assoc] using this
    have hb := b.isLt
    have hpow : 2 ^ (8 * (i + 1)) = 256 * 2 ^ (8 * i) := by
      rw [Nat.mul_add, Nat.pow_add]; norm_num; ring
    have hout2 : out ||| (b.val <<< (i * 8)) = out + b.val * 2 ^ (8 * i) := by
      rw [Nat.mul_comm i 8]; exact or_shl _ _ _ hout
    have hlt : out + b.val * 2 ^ (8 * i) < 2 ^ (8 * (i + 1)) := by
      rw [hpow]
      have : b.val * 2 ^ (8 * i) ≤ 255 * 2 ^ (8 * i) := Nat.mul_le_mul_right _ (by omega)
      omega
    simp only [List.length_cons, byte_reader.read_u64_loop, hm, hat, Option.bind_eq_bind,
      Option.some_bind, hout2]
    rw [ih rest (i + 1) _ hnext (by omega) hlt, hpow]
    simp only [le_value]
    congr 1
    ring

theorem read_u64_ok (be : Bool) (data : byte_vec) (p out : Nat) (bs rest : byte_vec)
    (h : data.drop p = bs ++ rest) (hl : bs.length = 8) (hfit : data.length < 2 ^ 64) :
    byte_reader.read_u64 be ⟨data, p⟩ out =
      some (KRES_OK, ⟨data, p + 8⟩, le64_to_host be (le_value bs)) := by
  have hb := drop_bound data p bs rest h (by omega)
  have m8 : (p + 8) % 2 ^ 64 = p + 8 := Nat.mod_eq_of_lt (by omega)
  have hnot : ¬ (p + 8 > data.length) := by omega
  have hloop := read_u64_loop_ok data p bs rest 0 0 (by simpa using h) (by omega) (by norm_num)
  rw [hl] at hloop
  simp only [byte_reader.read_u64, m8, hnot, if_false, hloop, Option.bind_eq_bind,
    Option.some_bind]
  simp

theorem read_u64_overflow (be : Bool) (data : byte_vec) (p out : Nat)
    (h : data.length < p + 8) (hp : p + 8 < 2 ^ 64) :
    byte_reader.read_u64 be ⟨data, p⟩ out = some (KRES_ERROR_BUFFER_OVERFLOW, ⟨data, p⟩, out) := by
  have m8 : (p + 8) % 2 ^ 64 = p + 8 := Nat.mod_eq_of_lt hp
  simp only [byte_reader.read_u64, m8]
  rw [if_pos h]

theorem read_bytes_ok (data : byte_vec) (p : Nat) (out bs rest : byte_vec)
    (h : data.drop p = bs ++ rest) (hfit : data.length < 2 ^ 64) (hp : p ≤ data.length) :
    byte_reader.read_bytes ⟨data, p⟩ bs.length out =
      some (KRES_OK, ⟨data, p + bs.length⟩, bs) := by
  have hb : p + bs.length ≤ data.length := by
    have h1 := congrArg List.length h
    simp only [List.length_drop, List.length_append] at h1
    omega
  have m : (p + bs.length) % 2 ^ 64 = p + bs.length := Nat.mod_eq_of_lt (by omega)
  have hnot : ¬ (p + bs.length > data.length) := by omega
  simp only [byte_reader.read_bytes, m, hnot, if_false, hb, if_true, h, List.take_left]

theorem read_bytes_overflow (data : byte_vec) (p count : Nat) (out : byte_vec)
    (h : data.length < p + count) (hp : p + count < 2 ^ 64) :
    byte_reader.read_bytes ⟨data, p⟩ count out =
      some (KRES_ERROR_BUFFER_OVERFLOW, ⟨data, p⟩, out) := by
  have m : (p + count) % 2 ^ 64 = p + count := Nat.mod_eq_of_lt hp
  simp only [byte_reader.read_bytes, m]
  rw [if_pos h]

/-! ## The serialized form of an archive -/

theorem write_bytes_buffer (w : byte_writer) (d : byte_vec) :
    (w.write_bytes d).buffer = w.buffer ++ d := rfl

theorem foldl_push_back (s : string) : ∀ w : byte_writer,
    (s.foldl (fun w c => w.push_back c) w).buffer = w.buffer ++ s := by
  induction s with
  | nil => intro w; simp
  | cons c s ih =>
    intro w
    rw [List.foldl_cons, ih]
    simp [byte_writer.push_back]

theorem write_string_buffer (w : byte_writer) (s : string) :
    (w.write_string s).buffer = w.buffer ++ (s ++ [0]) := by
  unfold byte_writer.write_string
  rw [byte_writer.push_back, foldl_push_back]
  simp

theorem foldl_table_buffer (be : Bool) (l : List (Nat × Nat)) : ∀ w : byte_writer,
    (l.foldl (fun w p => (w.write_u64 be p.1).write_u64 be p.2) w).buffer =
      w.buffer ++ table_bytes be l := by
  induction l with
  | nil => intro w; simp [table_bytes]
  | cons p l ih =>
    intro w
    simp [List.foldl, ih, write_u64_buffer, table_bytes, pair_bytes]

theorem foldl_entries_buffer (be : Bool) (es : List entry) : ∀ w : byte_writer,
    (es.foldl (fun w e =>
        let w := w.write_u32 be e.filename_len
        let w := w.write_string e.filename
        let w := w.write_u32 be e.crc32
        let w := w.write_u64 be e.size
        w.write_bytes e.data) w).buffer = w.buffer ++ entries_bytes be es := by
  induction es with
  | nil => intro w; simp [entries_bytes]
  | cons e es ih =>
    intro w
    simp [List.foldl, ih, write_u64_buffer, write_u32_buffer, write_string_buffer,
      write_bytes_buffer, entries_bytes, record_bytes]

theorem serialize_archive_eq (order : List (Nat × Nat) → List (Nat × Nat)) (be : Bool)
    (arch : archive) (out : byte_vec) :
    serialize_archive order be arch out =
      (KRES_OK, out ++ (header_bytes order be arch.header ++ entries_bytes be arch.entries)) := by
  unfold serialize_archive
  simp only [foldl_entries_buffer]
  split
  · simp [write_bytes_buffer, foldl_table_buffer, write_u64_buffer, write_u32_buffer,
      header_bytes, *]
  · simp [write_bytes_buffer, foldl_table_buffer, write_u64_buffer, write_u32_buffer,
      header_bytes, *]

/-! ## Tables and the offset-table loop -/

theorem map_find_eq_none {V : Type} (m : List (Nat × V)) (k : Nat) :
    map_find m k = none ↔ k ∉ m.map Prod.fst := by
  induction m with
  | nil => simp [map_find]
  | cons p m ih =>
    obtain ⟨a, b⟩ := p
    by_cases h : a = k
    · simp [map_find, h]
    · simp [map_find, h, ih, Ne.symm h]

theorem map_find_mem {V : Type} (m : List (Nat × V)) (k : Nat) (v : V)
    (h : map_find m k = some v) : (k, v) ∈ m := by
  induction m with
  | nil => simp [map_find] at h
  | cons p m ih =>
    obtain ⟨a, b⟩ := p
    by_cases hk : a = k
    · simp [map_find, hk] at h; simp [hk, h]
    · simp [map_find, hk] at h; simp [ih h]

theorem map_find_of_mem {V : Type} (m : List (Nat × V)) (k : Nat) (v : V)
    (hn : (m.map Prod.fst).Nodup) (h : (k, v) ∈ m) : map_find m k = some v := by
  induction m with
  | nil => simp at h
  | cons p m ih =>
    obtain ⟨a, b⟩ := p
    simp only [List.map_cons, List.nodup_cons] at hn
    rcases List.mem_cons.mp h with h1 | h1
    · cases h1; simp [map_find]
    · have hne : a ≠ k := by
        intro e
        apply hn.1
        rw [e]
        exact List.mem_map_of_mem Prod.fst h1
      simp [map_find, hne, ih hn.2 h1]

theorem map_find_perm {V : Type} (l1 l2 : List (Nat × V)) (k : Nat) (hp : l1.Perm l2)
    (hn : (l2.map Prod.fst).Nodup) : map_find l1 k = map_find l2 k := by
  have hn1 : (l1.map Prod.fst).Nodup := (hp.map Prod.fst).nodup_iff.mpr hn
  cases h : map_find l1 k with
  | none =>
    have := (map_find_eq_none l1 k).mp h
    have h2 : k ∉ l2.map Prod.fst := fun hh => this ((hp.map Prod.fst).mem_iff.mpr hh)
    exact ((map_find_eq_none l2 k).mpr h2).symm
  | some v =>
    have := map_find_mem l1 k v h
    exact (map_find_of_mem l2 k v hn (hp.mem_iff.mp this)).symm

theorem map_assign_absent {V : Type} (m : List (Nat × V)) (k : Nat) (v : V)
    (h : k ∉ m.map Prod.fst) : map_assign m k v = m ++ [(k, v)] := by
  induction m with
  | nil => simp [map_assign]
  | cons p m ih =>
    obtain ⟨a, b⟩ := p
    simp only [List.map_cons, List.mem_cons, not_or] at h
    simp [map_assign, Ne.symm h.1, ih h.2]

theorem foldl_assign_fresh {V : Type} (l : List (Nat × V)) : ∀ m : List (Nat × V),
    (l.map Prod.fst).Nodup → (∀ k ∈ l.map Prod.fst, k ∉ m.map Prod.fst) →
    l.foldl (fun t q => map_assign t q.1 q.2) m = m ++ l := by
  induction l with
  | nil => intro m _ _; simp
  | cons p l ih =>
    intro m hn hd
    simp only [List.map_cons, List.nodup_cons] at hn
    have hp : p.1 ∉ m.map Prod.fst := hd p.1 (by simp)
    rw [List.foldl_cons, map_assign_absent m p.1 p.2 hp, ih _ hn.2]
    · simp
    · intro k hk
      simp only [List.map_append, List.map_cons, List.map_nil, List.mem_append,
        List.mem_singleton, not_or]
      refine ⟨hd k (by simp [hk]), ?_⟩
      intro e
      apply hn.1
      rw [← e]
      exact hk

theorem table_bytes_length (be : Bool) (l : List (Nat × Nat)) :
    (table_bytes be l).length = 16 * l.length := by
  induction l with
  | nil => rfl
  | cons p l ih => simp [table_bytes, pair_bytes, le_bytes_length, ih]; omega

theorem parse_header_loop_ok (be : Bool) (data : byte_vec) (hfit : data.length < 2 ^ 64) :
    ∀ (l : List (Nat × Nat)) (p : Nat) (h : header) (rest : byte_vec),
      data.drop p = table_bytes be l ++ rest →
      (∀ q ∈ l, q.1 < 2 ^ 64 ∧ q.2 < 2 ^ 64) →
      parse_header_loop be l.length ⟨data, p⟩ h =
        some (KRES_OK, ⟨data, p + 16 * l.length⟩,
          { h with offset_table := l.foldl (fun t q => map_assign t q.1 q.2) h.offset_table }) := by
  intro l
  induction l with
  | nil => intro p h rest _ _; simp [parse_header_loop]
  | cons q l ih =>
    intro p h rest hd hq
    have hq1 := hq q (by simp)
    simp only [table_bytes, pair_bytes, List.append_assoc] at hd
    have r1 := read_u64_ok be data p 0 _ _ hd (le_bytes_length _ _) hfit
    have hd2 := drop_step data p _ _ hd
    rw [le_bytes_length] at hd2
    have r2 := read_u64_ok be data (p + 8) 0 _ _ hd2 (le_bytes_length _ _) hfit
    have hd3 := drop_step data (p + 8) _ _ hd2
    rw [le_bytes_length] at hd3
    rw [decode_le_bytes64 be _ hq1.1] at r1
    rw [decode_le_bytes64 be _ hq1.2] at r2
    simp only [List.length_cons, parse_header_loop, r1, r2, ne_eq, not_true_eq_false, if_false]
    rw [ih (p + 8 + 8) _ rest hd3 (fun q' hq' => hq q' (by simp [hq']))]
    simp only [List.foldl_cons]
    have e : p + 8 + 8 + 16 * l.length = p + 16 * (l.length + 1) := by omega
    rw [e]

/-! ## Parsing the bytes of a header -/

theorem KRES_MAGIC_lt : KRES_MAGIC < 2 ^ 32 := by decide

theorem KRES_VERSION_eq : KRES_VERSION = 1 := by decide

/-- Parsing the bytes of a well-formed header gives its persisted fields back. -/
theorem parse_header_header_bytes (order : List (Nat × Nat) → List (Nat × Nat)) (be : Bool)
    (H h0 : header) (tail : byte_vec)
    (hmagic : H.magic = KRES_MAGIC) (hver : H.version < 2 ^ 32) (hflags : H.flags < 2 ^ 32)
    (hcount : H.entry_count = (order H.offset_table).length)
    (hpairs : ∀ q ∈ order H.offset_table, q.1 < 2 ^ 64 ∧ q.2 < 2 ^ 64)
    (huss : H.user_section_size = H.user_section.length)
    (hfit : (header_bytes order be H ++ tail).length < 2 ^ 64) :
    parse_header be (header_bytes order be H ++ tail) h0 =
      some (KRES_OK,
        { h0 with
          magic := H.magic
          version := H.version
          flags := H.flags
          entry_count := H.entry_count
          offset_table :=
            (order H.offset_table).foldl (fun t q => map_assign t q.1 q.2) h0.offset_table
          user_section_size := H.user_section_size
          user_section := if H.user_section_size > 0 then H.user_section else h0.user_section }) := by
  generalize hdata : header_bytes order be H ++ tail = data at hfit
  have hlen : (header_bytes order be H).length ≤ data.length := by
    rw [← hdata]; simp
  have hlen2 : (header_bytes order be H).length =
      28 + 16 * (order H.offset_table).length +
        (if H.user_section_size > 0 then H.user_section else []).length := by
    simp only [header_bytes, List.length_append, le_bytes_length, table_bytes_length]
    omega
  have hcnt : H.entry_count < 2 ^ 64 := by omega
  have hus : H.user_section_size < 2 ^ 64 := by
    by_cases h : H.user_section_size > 0
    · rw [if_pos h] at hlen2; omega
    · omega
  have d0 : data.drop 0 = le_bytes 4 (host_to_le32 be H.magic) ++
      (le_bytes 4 (host_to_le32 be H.version) ++
        (le_bytes 4 (host_to_le32 be H.flags) ++
          (le_bytes 8 (host_to_le64 be H.entry_count) ++
            (table_bytes be (order H.offset_table) ++
              (le_bytes 8 (host_to_le64 be H.user_section_size) ++
                ((if H.user_section_size > 0 then H.user_section else []) ++ tail)))))) := by
    rw [List.drop_zero, ← hdata, header_bytes]
    simp only [List.append_assoc]
  have r0 := read_u32_ok be data 0 h0.magic _ _ d0 (le_bytes_length _ _) hfit
  have d1 := drop_step data 0 _ _ d0
  rw [le_bytes_length] at d1
  have r1 := read_u32_ok be data (0 + 4) h0.version _ _ d1 (le_bytes_length _ _) hfit
  have d2 := drop_step data (0 + 4) _ _ d1
  rw [le_bytes_length] at d2
  have r2 := read_u32_ok be data (0 + 4 + 4) h0.flags _ _ d2 (le_bytes_length _ _) hfit
  have d3 := drop_step data (0 + 4 + 4) _ _ d2
  rw [le_bytes_length] at d3
  have r3 := read_u64_ok be data (0 + 4 + 4 + 4) h0.entry_count _ _ d3 (le_bytes_length _ _) hfit
  have d4 := drop_step data (0 + 4 + 4 + 4) _ _ d3
  rw [le_bytes_length] at d4
  rw [decode_le_bytes32 be _ (hmagic ▸ KRES_MAGIC_lt)] at r0
  rw [decode_le_bytes32 be _ hver] at r1
  rw [decode_le_bytes32 be _ hflags] at r2
  rw [decode_le_bytes64 be _ hcnt] at r3
  have d5 := drop_step data (0 + 4 + 4 + 4 + 8) _ _ d4
  rw [table_bytes_length] at d5
  have r5 := fun u => read_u64_ok be data (0 + 4 + 4 + 4 + 8 + 16 * (order H.offset_table).length)
    u _ _ d5 (le_bytes_length _ _) hfit
  have d6 := drop_step data _ _ _ d5
  rw [le_bytes_length] at d6
  simp only [decode_le_bytes64 be _ hus] at r5
  unfold parse_header
  simp only [r0, r1, r2, r3, ne_eq, not_true_eq_false, if_false, hmagic]
  have rl := fun h => parse_header_loop_ok be data hfit (order H.offset_table) (0 + 4 + 4 + 4 + 8)
    h _ d4 hpairs
  simp only [hcount, rl, r5, ne_eq, not_true_eq_false, if_false]
  by_cases hpos : H.user_section_size > 0
  · rw [if_pos hpos] at d6
    have hp : 0 + 4 + 4 + 4 + 8 + 16 * (order H.offset_table).length + 8 ≤ data.length := by
      rw [if_pos hpos] at hlen2; omega
    have r6 := fun o => read_bytes_ok data _ o _ _ d6 hfit hp
    rw [← huss] at r6
    simp only [hpos, if_true, r6, ne_eq, not_true_eq_false, if_false]
  · simp only [hpos, if_false]

/-! ## The layout loop and the result of build_archive -/

theorem layout_loop_frame (X : string → Nat) (es : List entry) : ∀ (h : header) (off : Nat),
    (layout_loop X es h off).magic = h.magic ∧ (layout_loop X es h off).version = h.version ∧
    (layout_loop X es h off).flags = h.flags ∧
    (layout_loop X es h off).entry_count = h.entry_count ∧
    (layout_loop X es h off).user_section_size = h.user_section_size ∧
    (layout_loop X es h off).user_section = h.user_section := by
  induction es with
  | nil => intro h off; simp [layout_loop]
  | cons e es ih =>
    intro h off
    simp only [layout_loop]
    exact ih _ _

theorem layout_pairs_keys (X : string → Nat) (es : List entry) : ∀ off : Nat,
    (layout_pairs X es off).map Prod.fst = es.map (fun e => generate_id X e.filename) := by
  induction es with
  | nil => intro off; rfl
  | cons e es ih => intro off; simp [layout_pairs, ih]

theorem layout_pairs_length (X : string → Nat) (es : List entry) (off : Nat) :
    (layout_pairs X es off).length = es.length := by
  have := congrArg List.length (layout_pairs_keys X es off)
  simpa using this

theorem layout_pairs_lt (X : string → Nat) (es : List entry) : ∀ off : Nat, off < 2 ^ 64 →
    ∀ q ∈ layout_pairs X es off, q.1 < 2 ^ 64 ∧ q.2 < 2 ^ 64 := by
  induction es with
  | nil => intro off _ q hq; simp [layout_pairs] at hq
  | cons e es ih =>
    intro off hoff q hq
    simp only [layout_pairs, List.mem_cons] at hq
    rcases hq with rfl | hq
    · exact ⟨Nat.mod_lt _ (by norm_num), hoff⟩
    · exact ih _ (Nat.mod_lt _ (by norm_num)) q hq

theorem layout_loop_offset_table (X : string → Nat) (es : List entry) :
    ∀ (h : header) (off : Nat),
      (es.map (fun e => generate_id X e.filename)).Nodup →
      (∀ k ∈ es.map (fun e => generate_id X e.filename), k ∉ h.offset_table.map Prod.fst) →
      (layout_loop X es h off).offset_table = h.offset_table ++ layout_pairs X es off := by
  induction es with
  | nil => intro h off _ _; simp [layout_loop, layout_pairs]
  | cons e es ih =>
    intro h off hn hd
    simp only [List.map_cons, List.nodup_cons] at hn
    have hfresh : generate_id X e.filename ∉ h.offset_table.map Prod.fst := hd _ (by simp)
    simp only [layout_loop, layout_pairs]
    rw [ih _ _ hn.2]
    · simp [map_assign_absent _ _ _ hfresh]
    · intro k hk
      simp only [map_assign_absent _ _ _ hfresh, List.map_append, List.map_cons, List.map_nil,
        List.mem_append, List.mem_singleton, not_or]
      refine ⟨hd k (by simp [hk]), ?_⟩
      intro e1
      apply hn.1
      rw [← e1]
      exact hk

/-- The header that `build_archive` hands to the layout loop. -/
theorem build_archive_eq (X : string → Nat) (order : List (Nat × Nat) → List (Nat × Nat))
    (be : Bool) (E : List entry) (ud : Option byte_vec) :
    build_archive X order be E init_archive ud =
      (KRES_OK,
        { raw_data :=
            header_bytes order be
              (layout_loop X E
                { header_default with
                  entry_count := E.length % 2 ^ 64
                  user_section := ud.getD []
                  user_section_size := (ud.getD []).length % 2 ^ 64 }
                ((20 + E.length * 16 + (8 + (ud.getD []).length % 2 ^ 64)) % 2 ^ 64)) ++
              entries_bytes be E
          header :=
            layout_loop X E
              { header_default with
                entry_count := E.length % 2 ^ 64
                user_section := ud.getD []
                user_section_size := (ud.getD []).length % 2 ^ 64 }
              ((20 + E.length * 16 + (8 + (ud.getD []).length % 2 ^ 64)) % 2 ^ 64)
          entries := E }) := by
  cases ud with
  | none => simp [build_archive, serialize_archive_eq, init_archive, header_default]
  | some u => simp [build_archive, serialize_archive_eq, init_archive, header_default]

/-! ## Building, then parsing -/

theorem header_bytes_length (order : List (Nat × Nat) → List (Nat × Nat)) (be : Bool)
    (H : header) : (header_bytes order be H).length =
      28 + 16 * (order H.offset_table).length +
        (if H.user_section_size > 0 then H.user_section else []).length := by
  simp only [header_bytes, List.length_append, le_bytes_length, table_bytes_length]
  omega

/-- The archive that `build_archive` produces from entries with distinct ids,
and the header that `parse_header` reads back from its bytes. -/
theorem build_archive_parse (X : string → Nat) (order : List (Nat × Nat) → List (Nat × Nat))
    (be : Bool) (E : List entry) (ud : Option byte_vec)
    (horder : ∀ m, (order m).Perm m)
    (hids : (E.map (fun e => generate_id X e.filename)).Nodup)
    (hud : (ud.getD []).length < 2 ^ 64)
    (hfit : (build_archive X order be E init_archive ud).2.raw_data.length < 2 ^ 64) :
    ∃ H : header,
      build_archive X order be E init_archive ud =
        (KRES_OK, { raw_data := header_bytes order be H ++ entries_bytes be E, header := H,
                    entries := E }) ∧
      H.offset_table = layout_pairs X E (28 + 16 * E.length + (ud.getD []).length) ∧
      (header_bytes order be H).length = 28 + 16 * E.length + (ud.getD []).length ∧
      parse_header be (header_bytes order be H ++ entries_bytes be E) header_default =
        some (KRES_OK,
          { header_default with
            entry_count := E.length
            offset_table := order H.offset_table
            user_section_size := (ud.getD []).length
            user_section := ud.getD [] }) := by
  rw [build_archive_eq] at hfit ⊢
  simp only at hfit ⊢
  generalize hH0 : ({ header_default with
      entry_count := E.length % 2 ^ 64
      user_section := ud.getD []
      user_section_size := (ud.getD []).length % 2 ^ 64 } : header) = H0 at hfit ⊢
  generalize hoff : (20 + E.length * 16 + (8 + (ud.getD []).length % 2 ^ 64)) % 2 ^ 64 = off
    at hfit ⊢
  obtain ⟨f1, f2, f3, f4, f5, f6⟩ := layout_loop_frame X E H0 off
  have hT : (layout_loop X E H0 off).offset_table = layout_pairs X E off := by
    rw [layout_loop_offset_table X E H0 off hids]
    · rw [← hH0]; simp [header_default]
    · intro k _; rw [← hH0]; simp [header_default]
  generalize hH : layout_loop X E H0 off = H at *
  have hperm := horder H.offset_table
  have hkeys : (H.offset_table.map Prod.fst).Nodup := by
    rw [hT, layout_pairs_keys]; exact hids
  have hlenT : (order H.offset_table).length = E.length := by
    rw [hperm.length_eq, hT, layout_pairs_length]
  have hlenH := header_bytes_length order be H
  rw [hlenT] at hlenH
  have huss : H.user_section_size = H.user_section.length := by
    rw [f5, f6, ← hH0]; exact Nat.mod_eq_of_lt hud
  have hus : (if H.user_section_size > 0 then H.user_section else []).length =
      (ud.getD []).length := by
    split
    · rw [f6, ← hH0]
    · rename_i hz
      have : H.user_section.length = 0 := by omega
      rw [f6, ← hH0] at this
      simp only at this
      rw [this]; rfl
  rw [hus] at hlenH
  have hlenraw : (header_bytes order be H).length ≤
      (header_bytes order be H ++ entries_bytes be E).length := by simp
  have hoff2 : off = 28 + 16 * E.length + (ud.getD []).length := by
    rw [← hoff, Nat.mod_eq_of_lt hud]
    exact (Nat.mod_eq_of_lt (by omega)).trans (by omega)
  have hcount : H.entry_count = (order H.offset_table).length := by
    rw [hlenT, f4, ← hH0]; exact Nat.mod_eq_of_lt (by omega)
  have hpairs : ∀ q ∈ order H.offset_table, q.1 < 2 ^ 64 ∧ q.2 < 2 ^ 64 := by
    intro q hq
    have := hperm.mem_iff.mp hq
    rw [hT] at this
    exact layout_pairs_lt X E off (by omega) q this
  have hparse := parse_header_header_bytes order be H header_default (entries_bytes be E)
    (by rw [f1, ← hH0]; rfl) (by rw [f2, ← hH0]; simp [header_default, KRES_VERSION_eq])
    (by rw [f3, ← hH0]; simp [header_default])
    hcount hpairs huss hfit
  have hfold : (order H.offset_table).foldl (fun t q => map_assign t q.1 q.2)
      header_default.offset_table = order H.offset_table := by
    rw [foldl_assign_fresh]
    · simp [header_default]
    · exact (hperm.map Prod.fst).nodup_iff.mpr hkeys
    · intro k _; simp [header_default]
  rw [hfold] at hparse
  refine ⟨H, rfl, hoff2 ▸ hT, hlenH, ?_⟩
  rw [hparse]
  have e1 : H.magic = header_default.magic := by rw [f1, ← hH0]
  have e2 : H.version = header_default.version := by rw [f2, ← hH0]
  have e3 : H.flags = header_default.flags := by rw [f3, ← hH0]
  have e4 : H.entry_count = E.length := by rw [hcount, hlenT]
  have e5 : H.user_section_size = (ud.getD []).length := by rw [huss, f6, ← hH0]
  have e6 : (if H.user_section_size > 0 then H.user_section else header_default.user_section) =
      ud.getD [] := by
    split
    · rw [f6, ← hH0]
    · rename_i hz
      have hz0 : (ud.getD []).length = 0 := by omega
      rw [List.length_eq_zero.mp hz0]; rfl
  rw [e6, e1, e2, e3, e4, e5]

/-! ## Locating and extracting records -/

theorem record_bytes_length (be : Bool) (e : entry) :
    (record_bytes be e).length = 4 + e.filename.length + 1 + 4 + 8 + e.data.length := by
  simp only [record_bytes, List.length_append, le_bytes_length, List.length_cons,
    List.length_nil]
  omega

/-- Every entry of a laid-out list is found in the table at the offset where
its record starts in the serialized bytes. -/
theorem layout_pairs_locate (X : string → Nat) (be : Bool) (data : byte_vec)
    (hfit : data.length < 2 ^ 64) :
    ∀ (es : List entry) (off : Nat) (rest : byte_vec),
      data.drop off = entries_bytes be es ++ rest →
      (∀ e ∈ es, e.size = e.data.length) →
      (es.map (fun e => generate_id X e.filename)).Nodup →
      ∀ e ∈ es, ∃ (o : Nat) (rest1 : byte_vec),
        map_find (layout_pairs X es off) (generate_id X e.filename) = some o ∧
        data.drop o = record_bytes be e ++ rest1 := by
  intro es
  induction es with
  | nil => intro off rest _ _ _ e he; simp at he
  | cons e0 es ih =>
    intro off rest hd hsz hn e he
    simp only [entries_bytes, List.append_assoc] at hd
    simp only [List.map_cons, List.nodup_cons] at hn
    rcases List.mem_cons.mp he with rfl | he1
    · exact ⟨off, _, by simp [layout_pairs, map_find], hd⟩
    · have hne : generate_id X e0.filename ≠ generate_id X e.filename := by
        intro heq
        apply hn.1
        rw [heq]
        exact List.mem_map_of_mem (fun e => generate_id X e.filename) he1
      have hb := drop_bound data off _ _ hd (by rw [record_bytes_length]; omega)
      have hd2 := drop_step data off _ _ hd
      have hadv : (off + record_advance e0) % 2 ^ 64 = off + (record_bytes be e0).length := by
        rw [record_bytes_length, record_advance, hsz e0 (by simp)]
        rw [record_bytes_length] at hb
        exact Nat.mod_eq_of_lt (by omega)
      obtain ⟨o, rest1, h1, h2⟩ := ih _ rest hd2 (fun e' he' => hsz e' (by simp [he'])) hn.2 e he1
      refine ⟨o, rest1, ?_, h2⟩
      simp only [layout_pairs, map_find, hne, if_false, hadv]
      exact h1

theorem getElem_of_drop (data : byte_vec) (p : Nat) (bs rest : byte_vec)
    (h : data.drop p = bs ++ rest) (i : Nat) (hi : i < bs.length) :
    data[p + i]? = some (bs.get ⟨i, hi⟩) := by
  have h1 : (data.drop p)[i]? = (bs ++ rest)[i]? := by rw [h]
  rw [List.getElem?_drop, List.getElem?_append_left hi, List.getElem?_eq_getElem hi] at h1
  simpa using h1

theorem get_filename_ptr_ok (data : byte_vec) (o : Nat) (bs rest : byte_vec)
    (h : data.drop o = bs ++ rest) (hl : bs.length = 4) (hfit : data.length < 2 ^ 64) :
    get_filename_ptr data o = some (le_value bs, o + 4) := by
  have hb := drop_bound data o bs rest h (by omega)
  match bs, hl with
  | [b0, b1, b2, b3], _ =>
    have e0 := getElem_of_drop data o _ rest h 0 (by simp)
    have e1 := getElem_of_drop data o _ rest h 1 (by simp)
    have e2 := getElem_of_drop data o _ rest h 2 (by simp)
    have e3 := getElem_of_drop data o _ rest h 3 (by simp)
    simp only [List.length_cons, List.length_nil] at hb
    have m1 : (o + 1) % 2 ^ 64 = o + 1 := Nat.mod_eq_of_lt (by omega)
    have m2 : (o + 2) % 2 ^ 64 = o + 2 := Nat.mod_eq_of_lt (by omega)
    have m3 : (o + 3) % 2 ^ 64 = o + 3 := Nat.mod_eq_of_lt (by omega)
    simp only [Nat.add_zero] at e0
    simp only [get_filename_ptr, m1, m2, m3, e0, e1, e2, e3, List.get_eq_getElem,
      List.getElem_cons_zero, List.getElem_cons_succ, Option.bind_eq_bind, Option.some_bind,
      le_value]
    have h0 := b0.isLt
    have h1 := b1.isLt
    have h2 := b2.isLt
    have h3 := b3.isLt
    rw [or_shl _ _ 8 (by omega), or_shl _ _ 16 (by omega), or_shl _ _ 24 (by omega)]
    congr 2
    omega

theorem assign_from_ptr_ok (data : byte_vec) (p : Nat) (bs rest : byte_vec)
    (h : data.drop p = bs ++ rest) (hp : p ≤ data.length) :
    assign_from_ptr data p bs.length = some bs := by
  have hb : p + bs.length ≤ data.length := by
    have h1 := congrArg List.length h
    simp only [List.length_drop, List.length_append] at h1
    omega
  simp [assign_from_ptr, hb, h]

/-- Extraction at an offset where a well-formed record starts returns the
record (little-endian host). -/
theorem extract_entry_by_id_at (data : byte_vec) (hfit : data.length < 2 ^ 64) (h : header)
    (k o : Nat) (hfind : map_find h.offset_table k = some o) (e : entry) (rest : byte_vec)
    (hd : data.drop o = record_bytes false e ++ rest)
    (hlen : e.filename_len = e.filename.length) (hsize : e.size = e.data.length)
    (hl32 : e.filename_len < 2 ^ 32) (hc32 : e.crc32 < 2 ^ 32) (out : entry) :
    extract_entry_by_id false data h k out = some (KRES_OK, e) := by
  simp only [record_bytes, List.append_assoc] at hd
  have hb := drop_bound data o _ _ hd (by rw [le_bytes_length]; omega)
  rw [le_bytes_length] at hb
  have g := get_filename_ptr_ok data o _ _ hd (le_bytes_length _ _) hfit
  rw [le_value_le_bytes] at g
  have hv : host_to_le32 false e.filename_len % 256 ^ 4 = e.filename.length := by
    rw [← hlen]; exact Nat.mod_eq_of_lt (by simpa [host_to_le32] using hl32)
  rw [hv] at g
  have d1 := drop_step data o _ _ hd
  rw [le_bytes_length] at d1
  have a := assign_from_ptr_ok data (o + 4) _ _ d1 (by omega)
  have d2 := drop_step data (o + 4) _ _ d1
  have d3 := drop_step data (o + 4 + e.filename.length) _ _ d2
  simp only [List.length_cons, List.length_nil] at d3
  have hb3 := drop_bound data _ _ _ d3 (by rw [le_bytes_length]; omega)
  rw [le_bytes_length] at hb3
  have r1 := fun u => read_u32_ok false data (o + 4 + e.filename.length + (0 + 1)) u _ _ d3
    (le_bytes_length _ _) hfit
  simp only [decode_le_bytes32 false _ hc32] at r1
  have d4 := drop_step data _ _ _ d3
  rw [le_bytes_length] at d4
  have hb4 := drop_bound data _ _ _ d4 (by rw [le_bytes_length]; omega)
  rw [le_bytes_length] at hb4
  have hs64 : e.size < 2 ^ 64 := by
    have := drop_step data _ _ _ d4
    rw [le_bytes_length] at this
    have h1 := congrArg List.length this
    simp only [List.length_drop, List.length_append] at h1
    omega
  have r2 := fun u => read_u64_ok false data _ u _ _ d4 (le_bytes_length _ _) hfit
  simp only [decode_le_bytes64 false _ hs64] at r2
  have d5 := drop_step data _ _ _ d4
  rw [le_bytes_length] at d5
  have r3 := fun u => read_bytes_ok data _ u _ _ d5 hfit (by omega)
  rw [← hsize] at r3
  have hm : (o + 4 + e.filename.length + 1) % 2 ^ 64 = o + 4 + e.filename.length + (0 + 1) :=
    Nat.mod_eq_of_lt (by omega)
  simp only [extract_entry_by_id, hfind, g, a, hm, r1, r2, r3, ne_eq, not_true_eq_false,
    if_false]
  rw [← hlen]

/-- Filename extraction at an offset where a well-formed record starts returns
the filename and its length. -/
theorem extract_filename_at (data : byte_vec) (hfit : data.length < 2 ^ 64)
    (h : header) (k o : Nat) (hfind : map_find h.offset_table k = some o) (e : entry)
    (rest : byte_vec) (hd : data.drop o = record_bytes false e ++ rest)
    (hlen : e.filename_len = e.filename.length) (hl32 : e.filename_len < 2 ^ 32)
    (name : string) (len : Nat) :
    extract_filename data h k name len = some (KRES_OK, e.filename, e.filename.length) := by
  simp only [record_bytes, List.append_assoc] at hd
  have hb := drop_bound data o _ _ hd (by rw [le_bytes_length]; omega)
  rw [le_bytes_length] at hb
  have g := get_filename_ptr_ok data o _ _ hd (le_bytes_length _ _) hfit
  rw [le_value_le_bytes] at g
  have hv : host_to_le32 false e.filename_len % 256 ^ 4 = e.filename.length := by
    rw [← hlen]; exact Nat.mod_eq_of_lt (by simpa [host_to_le32] using hl32)
  rw [hv] at g
  have d1 := drop_step data o _ _ hd
  rw [le_bytes_length] at d1
  have a := assign_from_ptr_ok data (o + 4) _ _ d1 (by omega)
  simp only [extract_filename, hfind, g, a]

/-! ## Records of a built archive -/

/-- The built archive, the header parsed back from it, and the place of every
record in the produced bytes (little-endian host). -/
theorem build_archive_records (X : string → Nat) (order : List (Nat × Nat) → List (Nat × Nat))
    (E : List entry) (ud : Option byte_vec)
    (horder : ∀ m, (order m).Perm m)
    (hsize : ∀ e ∈ E, e.size = e.data.length)
    (hids : (E.map (fun e => generate_id X e.filename)).Nodup)
    (hud : (ud.getD []).length < 2 ^ 64)
    (hfit : (build_archive X order false E init_archive ud).2.raw_data.length < 2 ^ 64) :
    ∃ (H h : header) (raw : byte_vec),
      build_archive X order false E init_archive ud =
        (KRES_OK, { raw_data := raw, header := H, entries := E }) ∧
      parse_header false raw header_default = some (KRES_OK, h) ∧
      raw.length < 2 ^ 64 ∧
      h.offset_table.Perm (layout_pairs X E (28 + 16 * E.length + (ud.getD []).length)) ∧
      ∀ e ∈ E, ∃ (o : Nat) (rest : byte_vec),
        map_find h.offset_table (generate_id X e.filename) = some o ∧
        raw.drop o = record_bytes false e ++ rest := by
  obtain ⟨H, hb, hT, hlen, hparse⟩ := build_archive_parse X order false E ud horder hids hud hfit
  rw [hb] at hfit
  simp only at hfit
  refine ⟨H, _, _, hb, hparse, hfit, ?_, ?_⟩
  · simp only; rw [← hT]; exact horder _
  · intro e he
    have hd : (header_bytes order false H ++ entries_bytes false E).drop
        (28 + 16 * E.length + (ud.getD []).length) = entries_bytes false E ++ [] := by
      rw [← hlen, List.drop_left, List.append_nil]
    obtain ⟨o, rest, h1, h2⟩ := layout_pairs_locate X false _ hfit E _ [] hd hsize hids e he
    refine ⟨o, rest, ?_, h2⟩
    simp only
    rw [map_find_perm _ _ _ (horder H.offset_table) (by rw [hT, layout_pairs_keys]; exact hids),
      hT]
    exact h1

/-! ## Reads on arbitrary and on truncated buffers -/

theorem read_u32_in (be : Bool) (d : byte_vec) (p out : Nat) (hfit : d.length < 2 ^ 64)
    (hp : p + 4 ≤ d.length) :
    byte_reader.read_u32 be ⟨d, p⟩ out = some (KRES_OK, ⟨d, p + 4⟩, peek_u32 be d p) := by
  refine read_u32_ok be d p out ((d.drop p).take 4) ((d.drop p).drop 4)
    (List.take_append_drop 4 _).symm ?_ hfit
  rw [List.length_take, List.length_drop]; omega

theorem read_u64_in (be : Bool) (d : byte_vec) (p out : Nat) (hfit : d.length < 2 ^ 64)
    (hp : p + 8 ≤ d.length) :
    byte_reader.read_u64 be ⟨d, p⟩ out = some (KRES_OK, ⟨d, p + 8⟩, peek_u64 be d p) := by
  refine read_u64_ok be d p out ((d.drop p).take 8) ((d.drop p).drop 8)
    (List.take_append_drop 8 _).symm ?_ hfit
  rw [List.length_take, List.length_drop]; omega

theorem read_bytes_in (d : byte_vec) (p count : Nat) (out : byte_vec)
    (hfit : d.length < 2 ^ 64) (hp : p + count ≤ d.length) :
    byte_reader.read_bytes ⟨d, p⟩ count out =
      some (KRES_OK, ⟨d, p + count⟩, (d.drop p).take count) := by
  have m : (p + count) % 2 ^ 64 = p + count := Nat.mod_eq_of_lt (by omega)
  have hnot : ¬ (p + count > d.length) := by omega
  simp only [byte_reader.read_bytes, m, hnot, if_false, hp, if_true]

theorem at_none (d : byte_vec) (p i : Nat) (h : d.length ≤ i) :
    byte_reader.at ⟨d, p⟩ i = none := by
  simp [byte_reader.at, List.getElem?_eq_none h]

/-- A `read_u32` that does not fit the buffer fails: it reports an overflow or
reads outside the buffer. -/
theorem read_u32_out (be : Bool) (d : byte_vec) (p out : Nat) (hfit : d.length < 2 ^ 64)
    (hp : p ≤ d.length) (hout : d.length < p + 4) :
    byte_reader.read_u32 be ⟨d, p⟩ out = some (KRES_ERROR_BUFFER_OVERFLOW, ⟨d, p⟩, out) ∨
    byte_reader.read_u32 be ⟨d, p⟩ out = none := by
  unfold byte_reader.read_u32
  split
  · exact Or.inl rfl
  · right
    simp only [Option.bind_eq_bind]
    have hcases : d.length = p ∨ d.length = p + 1 ∨ d.length = p + 2 ∨ d.length = p + 3 := by
      omega
    rcases hcases with h | h | h | h
    · rw [at_none d p p (by omega)]; rfl
    · have e : byte_reader.at ⟨d, p⟩ ((p + 1) % 2 ^ 64) = none :=
        at_none d p _ (by rw [Nat.mod_eq_of_lt (by omega)]; omega)
      simp only [e]
      cases byte_reader.at ⟨d, p⟩ p <;> rfl
    · have e : byte_reader.at ⟨d, p⟩ ((p + 2) % 2 ^ 64) = none :=
        at_none d p _ (by rw [Nat.mod_eq_of_lt (by omega)]; omega)
      simp only [e]
      cases byte_reader.at ⟨d, p⟩ p <;> cases byte_reader.at ⟨d, p⟩ ((p + 1) % 2 ^ 64) <;> rfl
    · have e : byte_reader.at ⟨d, p⟩ ((p + 3) % 2 ^ 64) = none :=
        at_none d p _ (by rw [Nat.mod_eq_of_lt (by omega)]; omega)
      simp only [e]
      cases byte_reader.at ⟨d, p⟩ p <;> cases byte_reader.at ⟨d, p⟩ ((p + 1) % 2 ^ 64) <;>
        cases byte_reader.at ⟨d, p⟩ ((p + 2) % 2 ^ 64) <;> rfl

theorem read_u64_loop_none (r : byte_reader) : ∀ (n i out j : Nat), i ≤ j → j < i + n →
    r.at ((r.pos + j) % 2 ^ 64) = none → r.read_u64_loop n i out = none := by
  intro n
  induction n with
  | zero => intro i out j h1 h2 _; omega
  | succ n ih =>
    intro i out j h1 h2 hat
    simp only [byte_reader.read_u64_loop, Option.bind_eq_bind]
    by_cases hij : j = i
    · rw [← hij, hat]; rfl
    · cases r.at ((r.pos + i) % 2 ^ 64) with
      | none => rfl
      | some b => exact ih (i + 1) _ j (by omega) (by omega) hat

theorem read_u64_out (be : Bool) (d : byte_vec) (p out : Nat) (hfit : d.length < 2 ^ 64)
    (hp : p ≤ d.length) (hout : d.length < p + 8) :
    byte_reader.read_u64 be ⟨d, p⟩ out = some (KRES_ERROR_BUFFER_OVERFLOW, ⟨d, p⟩, out) ∨
    byte_reader.read_u64 be ⟨d, p⟩ out = none := by
  unfold byte_reader.read_u64
  split
  · exact Or.inl rfl
  · right
    have hat : byte_reader.at ⟨d, p⟩ ((p + (d.length - p)) % 2 ^ 64) = none :=
      at_none d p _ (by rw [Nat.mod_eq_of_lt (by omega)]; omega)
    rw [read_u64_loop_none ⟨d, p⟩ 8 0 0 (d.length - p) (by omega) (by omega) hat]
    rfl

theorem read_bytes_out (d : byte_vec) (p count : Nat) (out : byte_vec)
    (hout : d.length < p + count) :
    byte_reader.read_bytes ⟨d, p⟩ count out =
      some (KRES_ERROR_BUFFER_OVERFLOW, ⟨d, p⟩, out) ∨
    byte_reader.read_bytes ⟨d, p⟩ count out = none := by
  unfold byte_reader.read_bytes
  split
  · exact Or.inl rfl
  · right
    rw [if_neg (by simp only; omega)]

/-- The offset-table loop on a buffer that holds all `n` pairs succeeds and
moves the reader past them. -/
theorem parse_header_loop_in (be : Bool) (d : byte_vec) (hfit : d.length < 2 ^ 64) :
    ∀ (n p : Nat) (h : header), p + 16 * n ≤ d.length →
      ∃ t, parse_header_loop be n ⟨d, p⟩ h =
        some (KRES_OK, ⟨d, p + 16 * n⟩, { h with offset_table := t }) := by
  intro n
  induction n with
  | zero => intro p h _; exact ⟨h.offset_table, rfl⟩
  | succ n ih =>
    intro p h hp
    obtain ⟨t, ht⟩ := ih (p + 8 + 8)
      { h with offset_table :=
          map_assign h.offset_table (peek_u64 be d p) (peek_u64 be d (p + 8)) } (by omega)
    refine ⟨t, ?_⟩
    simp only [parse_header_loop, read_u64_in be d p 0 hfit (by omega),
      read_u64_in be d (p + 8) 0 hfit (by omega), ne_eq, not_true_eq_false, if_false, ht]
    have e : p + 8 + 8 + 16 * n = p + 16 * (n + 1) := by omega
    rw [e]

/-- The offset-table loop on a buffer that ends before the `n` pairs does not
succeed. -/
theorem parse_header_loop_out (be : Bool) (d : byte_vec) (hfit : d.length < 2 ^ 64) :
    ∀ (n p : Nat) (h : header), p ≤ d.length → d.length < p + 16 * n →
      parse_header_loop be n ⟨d, p⟩ h = none ∨
      ∃ r h1, parse_header_loop be n ⟨d, p⟩ h = some (KRES_ERROR_BUFFER_OVERFLOW, r, h1) := by
  intro n
  induction n with
  | zero => intro p h h1 h2; omega
  | succ n ih =>
    intro p h h1 h2
    by_cases c1 : p + 8 ≤ d.length
    · by_cases c2 : p + 8 + 8 ≤ d.length
      · simp only [parse_header_loop, read_u64_in be d p 0 hfit c1,
          read_u64_in be d (p + 8) 0 hfit c2, ne_eq, not_true_eq_false, if_false]
        exact ih _ _ c2 (by omega)
      · rcases read_u64_out be d (p + 8) 0 hfit c1 (by omega) with e | e
        · right
          simp only [parse_header_loop, read_u64_in be d p 0 hfit c1, e, ne_eq,
            not_true_eq_false, if_false]
          exact ⟨_, _, rfl⟩
        · left
          simp only [parse_header_loop, read_u64_in be d p 0 hfit c1, e, ne_eq,
            not_true_eq_false, if_false]
    · rcases read_u64_out be d p 0 hfit h1 (by omega) with e | e
      · right
        simp only [parse_header_loop, e]
        exact ⟨_, _, rfl⟩
      · left
        simp only [parse_header_loop, e]

/-- The offset-table loop on a buffer that ends before the `n` pairs, none of
whose positions wraps, reports an overflow. -/
theorem parse_header_loop_overflow (be : Bool) (d : byte_vec) (hfit : d.length < 2 ^ 64) :
    ∀ (n p : Nat) (h : header), p ≤ d.length → d.length < p + 16 * n → p + 16 * n < 2 ^ 64 →
      ∃ r h1, parse_header_loop be n ⟨d, p⟩ h = some (KRES_ERROR_BUFFER_OVERFLOW, r, h1) := by
  intro n
  induction n with
  | zero => intro p h h1 h2; omega
  | succ n ih =>
    intro p h h1 h2 h3
    by_cases c1 : p + 8 ≤ d.length
    · by_cases c2 : p + 8 + 8 ≤ d.length
      · simp only [parse_header_loop, read_u64_in be d p 0 hfit c1,
          read_u64_in be d (p + 8) 0 hfit c2, ne_eq, not_true_eq_false, if_false]
        exact ih _ _ c2 (by omega) (by omega)
      · simp only [parse_header_loop, read_u64_in be d p 0 hfit c1,
          read_u64_overflow be d (p + 8) 0 (by omega) (by omega), ne_eq, not_true_eq_false,
          if_false]
        exact ⟨_, _, rfl⟩
    · simp only [parse_header_loop, read_u64_overflow be d p 0 (by omega) (by omega)]
      exact ⟨_, _, rfl⟩

theorem take_drop_take (d : byte_vec) (k p w : Nat) (h : p + w ≤ k) :
    ((d.take k).drop p).take w = (d.drop p).take w := by
  rw [List.drop_take, List.take_take, Nat.min_eq_left (by omega)]

theorem peek_u32_take (be : Bool) (d : byte_vec) (k p : Nat) (h : p + 4 ≤ k) :
    peek_u32 be (d.take k) p = peek_u32 be d p := by
  simp only [peek_u32, take_drop_take d k p 4 h]

theorem peek_u64_take (be : Bool) (d : byte_vec) (k p : Nat) (h : p + 8 ≤ k) :
    peek_u64 be (d.take k) p = peek_u64 be d p := by
  simp only [peek_u64, take_drop_take d k p 8 h]

/-! ## What a successful parse implies -/

/-- What a successful `parse_header` tells about the buffer: the whole header
that its counts declare lies in the buffer, and the counts are the values
stored at their positions. -/
theorem parse_header_ok_inv (be : Bool) (d : byte_vec) (h0 h : header)
    (hfit : d.length < 2 ^ 64) (hok : parse_header be d h0 = some (KRES_OK, h)) :
    28 + 16 * h.entry_count ≤ d.length ∧
    (h.user_section_size > 0 → 28 + 16 * h.entry_count + h.user_section_size ≤ d.length) ∧
    peek_u32 be d 0 = KRES_MAGIC ∧
    h.entry_count = peek_u64 be d 12 ∧
    h.user_section_size = peek_u64 be d (20 + 16 * h.entry_count) := by
  unfold parse_header at hok
  by_cases c0 : 0 + 4 ≤ d.length
  swap
  · rcases read_u32_out be d 0 h0.magic hfit (by omega) (by omega) with e | e <;>
      simp [e] at hok
  simp only [read_u32_in be d 0 _ hfit c0, ne_eq, not_true_eq_false, if_false] at hok
  by_cases cm : peek_u32 be d 0 = KRES_MAGIC
  swap
  · simp [cm] at hok
  simp only [cm, not_true_eq_false, if_false] at hok
  by_cases c1 : 0 + 4 + 4 ≤ d.length
  swap
  · rcases read_u32_out be d (0 + 4) h0.version hfit (by omega) (by omega) with e | e <;>
      simp [e] at hok
  simp only [read_u32_in be d (0 + 4) _ hfit c1, ne_eq, not_true_eq_false, if_false] at hok
  by_cases c2 : 0 + 4 + 4 + 4 ≤ d.length
  swap
  · rcases read_u32_out be d (0 + 4 + 4) h0.flags hfit (by omega) (by omega) with e | e <;>
      simp [e] at hok
  simp only [read_u32_in be d (0 + 4 + 4) _ hfit c2, ne_eq, not_true_eq_false, if_false] at hok
  by_cases c3 : 0 + 4 + 4 + 4 + 8 ≤ d.length
  swap
  · rcases read_u64_out be d (0 + 4 + 4 + 4) h0.entry_count hfit (by omega) (by omega)
      with e | e <;> simp [e] at hok
  simp only [read_u64_in be d (0 + 4 + 4 + 4) _ hfit c3, ne_eq, not_true_eq_false, if_false]
    at hok
  generalize hn : peek_u64 be d (0 + 4 + 4 + 4) = n at hok
  by_cases c4 : 0 + 4 + 4 + 4 + 8 + 16 * n ≤ d.length
  swap
  · rcases parse_header_loop_out be d hfit n (0 + 4 + 4 + 4 + 8)
        { magic := peek_u32 be d 0, version := peek_u32 be d (0 + 4),
          flags := peek_u32 be d (0 + 4 + 4), entry_count := n,
          offset_table := h0.offset_table, user_section_size := h0.user_section_size,
          user_section := h0.user_section, filename_table := h0.filename_table }
        (by omega) (by omega) with e | ⟨r, h1, e⟩ <;>
      · rw [cm] at e
        rw [e] at hok
        simp at hok
  obtain ⟨t, ht⟩ := parse_header_loop_in be d hfit n (0 + 4 + 4 + 4 + 8)
    { magic := peek_u32 be d 0, version := peek_u32 be d (0 + 4),
      flags := peek_u32 be d (0 + 4 + 4), entry_count := n,
      offset_table := h0.offset_table, user_section_size := h0.user_section_size,
      user_section := h0.user_section, filename_table := h0.filename_table } c4
  rw [cm] at ht
  simp only [ht, ne_eq, not_true_eq_false, if_false] at hok
  by_cases c5 : 0 + 4 + 4 + 4 + 8 + 16 * n + 8 ≤ d.length
  swap
  · rcases read_u64_out be d (0 + 4 + 4 + 4 + 8 + 16 * n) h0.user_section_size hfit
      (by omega) (by omega) with e | e <;> simp [e] at hok
  simp only [read_u64_in be d (0 + 4 + 4 + 4 + 8 + 16 * n) _ hfit c5, ne_eq,
    not_true_eq_false, if_false] at hok
  generalize hu : peek_u64 be d (0 + 4 + 4 + 4 + 8 + 16 * n) = u at hok
  have e12 : (0 + 4 + 4 + 4 : Nat) = 12 := rfl
  have e20 : 0 + 4 + 4 + 4 + 8 + 16 * n = 20 + 16 * n := by omega
  rw [e12] at hn
  rw [e20] at hu
  by_cases cu : u > 0
  · simp only [cu, if_true] at hok
    by_cases c6 : 0 + 4 + 4 + 4 + 8 + 16 * n + 8 + u ≤ d.length
    swap
    · rcases read_bytes_out d (0 + 4 + 4 + 4 + 8 + 16 * n + 8) u h0.user_section (by omega)
        with e | e <;> simp [e] at hok
    simp only [read_bytes_in d _ u _ hfit c6, ne_eq, not_true_eq_false, if_false,
      Option.some.injEq, Prod.mk.injEq, true_and] at hok
    subst hok
    exact ⟨by simp only; omega, fun _ => by simp only; omega, cm, rfl, hu.symm⟩
  · simp only [cu, if_false, Option.some.injEq, Prod.mk.injEq, true_and] at hok
    subst hok
    exact ⟨by simp only; omega, fun hpos => absurd hpos cu, cm, rfl, hu.symm⟩

/-! ## Frame of the parser -/

/-- The offset-table loop changes no field of the header but the table. -/
theorem parse_header_loop_frame (be : Bool) : ∀ (n : Nat) (r : byte_reader) (h : header)
    (err : kres_err) (r1 : byte_reader) (h1 : header),
    parse_header_loop be n r h = some (err, r1, h1) →
    h1.magic = h.magic ∧ h1.version = h.version ∧ h1.flags = h.flags ∧
    h1.entry_count = h.entry_count := by
  intro n
  induction n with
  | zero =>
    intro r h err r1 h1 hres
    simp only [parse_header_loop, Option.some.injEq, Prod.mk.injEq] at hres
    obtain ⟨_, _, rfl⟩ := hres
    exact ⟨rfl, rfl, rfl, rfl⟩
  | succ n ih =>
    intro r h err r1 h1 hres
    simp only [parse_header_loop] at hres
    split at hres
    · exact Option.noConfusion hres
    · split at hres
      · simp only [Option.some.injEq, Prod.mk.injEq] at hres
        obtain ⟨_, _, rfl⟩ := hres
        exact ⟨rfl, rfl, rfl, rfl⟩
      · split at hres
        · exact Option.noConfusion hres
        · split at hres
          · simp only [Option.some.injEq, Prod.mk.injEq] at hres
            obtain ⟨_, _, rfl⟩ := hres
            exact ⟨rfl, rfl, rfl, rfl⟩
          · obtain ⟨a, b, c, e⟩ := ih _ _ _ _ _ hres
            exact ⟨a, b, c, e⟩

/-- A header that `parse_header` accepts carries the magic. -/
theorem parse_header_ok_magic (be : Bool) (d : byte_vec) (h0 h : header)
    (hok : parse_header be d h0 = some (KRES_OK, h)) : h.magic = KRES_MAGIC := by
  simp only [parse_header] at hok
  split at hok
  · exact Option.noConfusion hok
  split at hok
  · simp only [Option.some.injEq, Prod.mk.injEq] at hok
    exact absurd hok.1 (by assumption)
  split at hok
  · simp at hok
  rename_i hmagic
  simp only [ne_eq, Decidable.not_not] at hmagic
  split at hok
  · exact Option.noConfusion hok
  split at hok
  · simp only [Option.some.injEq, Prod.mk.injEq] at hok
    exact absurd hok.1 (by assumption)
  split at hok
  · exact Option.noConfusion hok
  split at hok
  · simp only [Option.some.injEq, Prod.mk.injEq] at hok
    exact absurd hok.1 (by assumption)
  split at hok
  · exact Option.noConfusion hok
  split at hok
  · simp only [Option.some.injEq, Prod.mk.injEq] at hok
    exact absurd hok.1 (by assumption)
  split at hok
  · exact Option.noConfusion hok
  rename_i errl rl hl hloop
  have hf := (parse_header_loop_frame be _ _ _ _ _ _ hloop).1
  split at hok
  · simp only [Option.some.injEq, Prod.mk.injEq] at hok
    exact absurd hok.1 (by assumption)
  split at hok
  · exact Option.noConfusion hok
  split at hok
  · simp only [Option.some.injEq, Prod.mk.injEq] at hok
    exact absurd hok.1 (by assumption)
  split at hok
  · split at hok
    · exact Option.noConfusion hok
    split at hok
    · simp only [Option.some.injEq, Prod.mk.injEq] at hok
      exact absurd hok.1 (by assumption)
    · simp only [Option.some.injEq, Prod.mk.injEq, true_and] at hok
      rw [← hok]
      simp only
      rw [hf]
      exact hmagic
  · simp only [Option.some.injEq, Prod.mk.injEq, true_and] at hok
    rw [← hok]
    simp only
    rw [hf]
    exact hmagic

/-! ## Positions of the records of a built archive -/

theorem entries_bytes_append (be : Bool) (a b : List entry) :
    entries_bytes be (a ++ b) = entries_bytes be a ++ entries_bytes be b := by
  induction a with
  | nil => rfl
  | cons e a ih => simp [entries_bytes, ih]

theorem entries_bytes_length (be : Bool) (es : List entry)
    (hsize : ∀ e ∈ es, e.size = e.data.length) :
    (entries_bytes be es).length = (es.map record_advance).sum := by
  induction es with
  | nil => rfl
  | cons e es ih =>
    simp only [entries_bytes, List.length_append, List.map_cons, List.sum_cons,
      ih (fun e1 h1 => hsize e1 (by simp [h1])), record_bytes_length, record_advance,
      hsize e (by simp)]

/-- The five writes that `serialize_archive` makes for one entry produce the
bytes of its record. -/
theorem record_writer_buffer (be : Bool) (e : entry) :
    ((((((byte_writer.mk []).write_u32 be e.filename_len).write_string e.filename).write_u32 be
      e.crc32).write_u64 be e.size).write_bytes e.data).buffer = record_bytes be e := by
  simp [write_bytes_buffer, write_u64_buffer, write_u32_buffer, write_string_buffer,
    record_bytes]

/-- The offset that the layout records for the entry at index `i`: the start
offset plus the record sizes of the entries before it. -/
theorem layout_pairs_find_index (X : string → Nat) : ∀ (es : List entry) (off i : Nat)
    (e : entry), es[i]? = some e →
    (es.map (fun e => generate_id X e.filename)).Nodup →
    off + (es.map record_advance).sum < 2 ^ 64 →
    map_find (layout_pairs X es off) (generate_id X e.filename) =
      some (off + ((es.take i).map record_advance).sum) := by
  intro es
  induction es with
  | nil => intro off i e he _ _; simp at he
  | cons e0 es ih =>
    intro off i e he hn hlt
    simp only [List.map_cons, List.nodup_cons, List.sum_cons] at hn hlt
    cases i with
    | zero =>
      simp only [List.getElem?_cons_zero, Option.some.injEq] at he
      subst he
      simp [layout_pairs, map_find]
    | succ i =>
      simp only [List.getElem?_cons_succ] at he
      have hmem : e ∈ es := List.getElem?_mem he
      have hne : generate_id X e0.filename ≠ generate_id X e.filename := by
        intro heq
        apply hn.1
        rw [heq]
        exact List.mem_map_of_mem (fun e => generate_id X e.filename) hmem
      have hadv : (off + record_advance e0) % 2 ^ 64 = off + record_advance e0 :=
        Nat.mod_eq_of_lt (by omega)
      simp only [layout_pairs, map_find, hne, if_false, hadv, List.take_succ_cons,
        List.map_cons, List.sum_cons]
      rw [ih (off + record_advance e0) i e he hn.2 (by omega)]
      congr 1
      omega

/-- Where `build_archive` on a fresh archive puts the record of the entry at
index `i`, and the length of what it produces. -/
theorem build_archive_positions (X : string → Nat)
    (order : List (Nat × Nat) → List (Nat × Nat)) (be : Bool) (E : List entry)
    (ud : Option byte_vec)
    (horder : ∀ m, (order m).Perm m)
    (hsize : ∀ e ∈ E, e.size = e.data.length)
    (hids : (E.map (fun e => generate_id X e.filename)).Nodup)
    (hud : (ud.getD []).length < 2 ^ 64)
    (hfit : (build_archive X order be E init_archive ud).2.raw_data.length < 2 ^ 64) :
    ∃ H : header,
      build_archive X order be E init_archive ud =
        (KRES_OK, { raw_data := header_bytes order be H ++ entries_bytes be E, header := H,
                    entries := E }) ∧
      (header_bytes order be H).length = 28 + 16 * E.length + (ud.getD []).length ∧
      (header_bytes order be H ++ entries_bytes be E).length =
        28 + 16 * E.length + (ud.getD []).length + (E.map record_advance).sum ∧
      ∀ (i : Nat) (e : entry), E[i]? = some e →
        map_find H.offset_table (generate_id X e.filename) =
          some (28 + 16 * E.length + (ud.getD []).length +
            ((E.take i).map record_advance).sum) ∧
        (header_bytes order be H ++ entries_bytes be E).take
            (28 + 16 * E.length + (ud.getD []).length +
              ((E.take i).map record_advance).sum) =
          header_bytes order be H ++ entries_bytes be (E.take i) ∧
        (header_bytes order be H ++ entries_bytes be E).drop
            (28 + 16 * E.length + (ud.getD []).length +
              ((E.take i).map record_advance).sum) =
          record_bytes be e ++ entries_bytes be (E.drop (i + 1)) := by
  obtain ⟨H, hb, hT, hlen, _⟩ := build_archive_parse X order be E ud horder hids hud hfit
  rw [hb] at hfit
  simp only at hfit
  have htot : (header_bytes order be H ++ entries_bytes be E).length =
      28 + 16 * E.length + (ud.getD []).length + (E.map record_advance).sum := by
    rw [List.length_append, hlen, entries_bytes_length be E hsize]
  refine ⟨H, hb, hlen, htot, ?_⟩
  intro i e he
  have hsplit : E = E.take i ++ e :: E.drop (i + 1) := by
    have hi : i < E.length := by
      rcases Nat.lt_or_ge i E.length with h | h
      · exact h
      · rw [List.getElem?_eq_none h] at he; exact Option.noConfusion he
    have hget : E[i] = e := by
      rw [List.getElem?_eq_getElem hi] at he
      exact Option.some.inj he
    rw [← hget]
    exact (List.take_append_drop i E).symm.trans (by rw [List.drop_eq_getElem_cons hi])
  have hpre : (header_bytes order be H ++ entries_bytes be (E.take i)).length =
      28 + 16 * E.length + (ud.getD []).length + ((E.take i).map record_advance).sum := by
    rw [List.length_append, hlen,
      entries_bytes_length be (E.take i) (fun e1 h1 => hsize e1 (List.mem_of_mem_take h1))]
  have hraw : header_bytes order be H ++ entries_bytes be E =
      (header_bytes order be H ++ entries_bytes be (E.take i)) ++
        (record_bytes be e ++ entries_bytes be (E.drop (i + 1))) := by
    conv_lhs => rw [hsplit]
    rw [entries_bytes_append, entries_bytes, List.append_assoc]
  refine ⟨?_, ?_, ?_⟩
  · rw [hT]
    exact layout_pairs_find_index X E _ i e he hids (by rw [← htot]; exact hfit)
  · rw [hraw, ← hpre, List.take_left]
  · rw [hraw, ← hpre, List.drop_left]

/-! ## The sample archive on a big-endian host -/

/-- On a big-endian host, the archive built from the one entry `("t.x",
"hello")` parses back, its table resolves the id of `"t.x"` to offset 44, and
`get_filename_ptr` reads there the length `0x03000000`: the four bytes
`00 00 00 03` that `write_u32` wrote for the length 3, taken least significant
first and not converted. -/
theorem big_endian_sample_archive (X : string → Nat) :
    ∃ (H h : header) (raw : byte_vec),
      build_archive X id true [sample_e1] init_archive none =
        (KRES_OK, { raw_data := raw, header := H, entries := [sample_e1] }) ∧
      parse_header true raw header_default = some (KRES_OK, h) ∧
      raw.length = 69 ∧
      map_find h.offset_table (generate_id X sample_e1.filename) = some 44 ∧
      get_filename_ptr raw 44 = some (0x03000000, 48) := by
  have hfit : (build_archive X id true [sample_e1] init_archive none).2.raw_data.length
      < 2 ^ 64 := by
    rw [build_archive_eq]
    simp [header_bytes_length, layout_loop, map_assign, header_default, entries_bytes,
      record_bytes_length, sample_e1]
  have hids : ([sample_e1].map (fun e => generate_id X e.filename)).Nodup := by simp
  obtain ⟨H, hb, _, _, hparse⟩ := build_archive_parse X id true [sample_e1] none
    (fun m => List.Perm.refl m) hids (by decide) hfit
  obtain ⟨H1, hb1, _, htot, hpos⟩ := build_archive_positions X id true [sample_e1] none
    (fun m => List.Perm.refl m) (by decide) hids (by decide) hfit
  have hH : H1 = H := by
    have := hb1.symm.trans hb
    simp only [Prod.mk.injEq, true_and, archive.mk.injEq, and_true] at this
    exact this.2
  subst hH
  obtain ⟨hfind, _, hdrop⟩ := hpos 0 sample_e1 rfl
  have hlen : (header_bytes id true H1 ++ entries_bytes true [sample_e1]).length = 69 := by
    rw [htot]; decide
  refine ⟨H1, _, _, hb, hparse, hlen, ?_, ?_⟩
  · simpa using hfind
  · have hd : (header_bytes id true H1 ++ entries_bytes true [sample_e1]).drop 44 =
        le_bytes 4 (host_to_le32 true sample_e1.filename_len) ++
          (sample_e1.filename ++ (([0] : byte_vec) ++
            (le_bytes 4 (host_to_le32 true sample_e1.crc32) ++
              (le_bytes 8 (host_to_le64 true sample_e1.size) ++ sample_e1.data))) ++
            entries_bytes true ([sample_e1].drop (0 + 1))) := by
      have h44 : 28 + 16 * [sample_e1].length + ((none : Option byte_vec).getD []).length +
          (([sample_e1].take 0).map record_advance).sum = 44 := by decide
      rw [h44] at hdrop
      rw [hdrop, record_bytes]
      simp only [List.append_assoc]
    have g := get_filename_ptr_ok _ 44 _ _ hd (le_bytes_length _ _) (by rw [hlen]; decide)
    rw [g]
    have hv : le_value (le_bytes 4 (host_to_le32 true sample_e1.filename_len)) = 0x03000000 := by
      decide
    rw [hv]

/-! ## C1: header round trip -/

set_option maxRecDepth 100000

/-- C1. Header round trip: for every entry list `E` (the empty one included)
with pairwise distinct ids, every optional user data `ud`, every iteration
order of the offset table and either host byte order, `build_archive` on a
fresh archive returns `KRES_OK`, and `parse_header` on the produced bytes and
a fresh header returns `KRES_OK` with the magic, the version, flags `0`,
`entry_count = |E|`, an offset table equal as a table to the one of the built
archive (the same pairs, the same value at every key), and the user section
and its size (empty and `0` when no user data is given). The lengths of `ud`
and of the produced buffer are `size_t` values. -/
theorem build_archive_parse_header_roundtrip (X : string → Nat)
    (order : List (Nat × Nat) → List (Nat × Nat)) (be : Bool) (E : List entry)
    (ud : Option byte_vec)
    (horder : ∀ m, (order m).Perm m)
    (hids : (E.map (fun e => generate_id X e.filename)).Nodup)
    (hud : (ud.getD []).length < 2 ^ 64)
    (hfit : (build_archive X order be E init_archive ud).2.raw_data.length < 2 ^ 64) :
    (build_archive X order be E init_archive ud).1 = KRES_OK ∧
    ∃ h : header,
      parse_header be (build_archive X order be E init_archive ud).2.raw_data header_default =
        some (KRES_OK, h) ∧
      h.magic = KRES_MAGIC ∧ h.version = KRES_VERSION ∧ h.flags = 0 ∧
      h.entry_count = E.length ∧
      h.offset_table.Perm (build_archive X order be E init_archive ud).2.header.offset_table ∧
      (∀ k, map_find h.offset_table k =
        map_find (build_archive X order be E init_archive ud).2.header.offset_table k) ∧
      h.user_section_size = (ud.getD []).length ∧ h.user_section = ud.getD [] := by
  obtain ⟨H, hb, hT, _, hparse⟩ := build_archive_parse X order be E ud horder hids hud hfit
  rw [hb]
  refine ⟨rfl, _, hparse, rfl, rfl, rfl, rfl, horder _, ?_, rfl, rfl⟩
  intro k
  refine map_find_perm _ _ k (horder _) ?_
  rw [hT, layout_pairs_keys]
  exact hids

/-- Witness for C1: two entries, a two-byte user section, the table iterated in
reverse, on a little-endian host. -/
theorem build_archive_parse_header_roundtrip_witness :
    ((∀ m : List (Nat × Nat), (List.reverse m).Perm m) ∧
      ([sample_e1, sample_e2].map (fun e => generate_id sample_hash e.filename)).Nodup ∧
      ((some [7, 9] : Option byte_vec).getD []).length < 2 ^ 64 ∧
      (build_archive sample_hash List.reverse false [sample_e1, sample_e2] init_archive
        (some [7, 9])).2.raw_data.length < 2 ^ 64) ∧
    ((build_archive sample_hash List.reverse false [sample_e1, sample_e2] init_archive
      (some [7, 9])).1 = KRES_OK ∧
    ∃ h : header,
      parse_header false (build_archive sample_hash List.reverse false [sample_e1, sample_e2]
        init_archive (some [7, 9])).2.raw_data header_default = some (KRES_OK, h) ∧
      h.magic = KRES_MAGIC ∧ h.version = KRES_VERSION ∧ h.flags = 0 ∧
      h.entry_count = [sample_e1, sample_e2].length ∧
      h.offset_table.Perm (build_archive sample_hash List.reverse false [sample_e1, sample_e2]
        init_archive (some [7, 9])).2.header.offset_table ∧
      (∀ k, map_find h.offset_table k =
        map_find (build_archive sample_hash List.reverse false [sample_e1, sample_e2]
          init_archive (some [7, 9])).2.header.offset_table k) ∧
      h.user_section_size = ((some [7, 9] : Option byte_vec).getD []).length ∧
      h.user_section = (some [7, 9] : Option byte_vec).getD []) :=
  ⟨⟨fun m => List.reverse_perm m, by decide, by decide, by decide⟩,
    build_archive_parse_header_roundtrip sample_hash List.reverse false [sample_e1, sample_e2]
      (some [7, 9]) (fun m => List.reverse_perm m) (by decide) (by decide) (by decide)⟩

/-! ## C2: entry round trip -/

/-- Entry round trip on a little-endian host: for every entry list `E` whose entries have
`filename_len = length(filename)` and `size = length(data)` and whose ids are
pairwise distinct, built by `build_archive` into a fresh archive on a
little-endian host, `parse_header` on the produced bytes returns `KRES_OK`
with a header `h`, and for every entry `e` of `E` and every old content of
`out`, `extract_entry_by_name` with `e.filename` returns `KRES_OK` and leaves
`out` equal to `e` in all five fields. `filename_len` and `crc32` are 32-bit
values; the lengths of `ud` and of the produced buffer are `size_t` values. -/
theorem build_archive_extract_entry_roundtrip (X : string → Nat)
    (order : List (Nat × Nat) → List (Nat × Nat)) (E : List entry) (ud : Option byte_vec)
    (horder : ∀ m, (order m).Perm m)
    (hwf : ∀ e ∈ E, e.filename_len = e.filename.length ∧ e.size = e.data.length)
    (hrange : ∀ e ∈ E, e.filename_len < 2 ^ 32 ∧ e.crc32 < 2 ^ 32)
    (hids : (E.map (fun e => generate_id X e.filename)).Nodup)
    (hud : (ud.getD []).length < 2 ^ 64)
    (hfit : (build_archive X order false E init_archive ud).2.raw_data.length < 2 ^ 64) :
    (build_archive X order false E init_archive ud).1 = KRES_OK ∧
    ∃ h : header,
      parse_header false (build_archive X order false E init_archive ud).2.raw_data
        header_default = some (KRES_OK, h) ∧
      ∀ e ∈ E, ∀ out : entry,
        extract_entry_by_name X false
          (build_archive X order false E init_archive ud).2.raw_data h e.filename out =
            some (KRES_OK, e) := by
  obtain ⟨H, h, raw, hb, hparse, hraw, _, hloc⟩ :=
    build_archive_records X order E ud horder (fun e he => (hwf e he).2) hids hud hfit
  rw [hb]
  refine ⟨rfl, h, hparse, ?_⟩
  intro e he out
  obtain ⟨o, rest, hfind, hd⟩ := hloc e he
  exact extract_entry_by_id_at raw hraw h _ o hfind e rest hd (hwf e he).1 (hwf e he).2
    (hrange e he).1 (hrange e he).2 out

/-- Instance of the little-endian entry round trip: the two sample entries, no user data, the table iterated in
reverse. -/
theorem build_archive_extract_entry_roundtrip_witness :
    ((∀ m : List (Nat × Nat), (List.reverse m).Perm m) ∧
      (∀ e ∈ [sample_e1, sample_e2],
        e.filename_len = e.filename.length ∧ e.size = e.data.length) ∧
      (∀ e ∈ [sample_e1, sample_e2], e.filename_len < 2 ^ 32 ∧ e.crc32 < 2 ^ 32) ∧
      ([sample_e1, sample_e2].map (fun e => generate_id sample_hash e.filename)).Nodup ∧
      ((none : Option byte_vec).getD []).length < 2 ^ 64 ∧
      (build_archive sample_hash List.reverse false [sample_e1, sample_e2] init_archive
        none).2.raw_data.length < 2 ^ 64) ∧
    ((build_archive sample_hash List.reverse false [sample_e1, sample_e2] init_archive none).1 =
      KRES_OK ∧
    ∃ h : header,
      parse_header false
        (build_archive sample_hash List.reverse false [sample_e1, sample_e2] init_archive
          none).2.raw_data header_default = some (KRES_OK, h) ∧
      ∀ e ∈ [sample_e1, sample_e2], ∀ out : entry,
        extract_entry_by_name sample_hash false
          (build_archive sample_hash List.reverse false [sample_e1, sample_e2] init_archive
            none).2.raw_data h e.filename out = some (KRES_OK, e)) :=
  ⟨⟨fun m => List.reverse_perm m, by decide, by decide, by decide, by decide, by decide⟩,
    build_archive_extract_entry_roundtrip sample_hash List.reverse [sample_e1, sample_e2] none
      (fun m => List.reverse_perm m) (by decide) (by decide) (by decide) (by decide)
      (by decide)⟩

/-- C2 (defect shown). On a big-endian host and whatever the hash, for the one
entry `("t.x", "hello")`, whose `filename_len` and `size` are the lengths of
its filename and data: `build_archive` on a fresh archive returns `KRES_OK`
with 69 bytes, `parse_header` on them returns `KRES_OK` with a table that
resolves the id of `"t.x"` to offset 44, and `extract_entry_by_name` with
`"t.x"` does not return the entry. `get_filename_ptr` takes the four bytes
`00 00 00 03`, which `write_u32` wrote for the length 3, as `0x03000000`
without converting them, and the filename is copied from outside the buffer
(the result `none`). -/
theorem extract_entry_big_endian_host (X : string → Nat) (out : entry) :
    (sample_e1.filename_len = sample_e1.filename.length ∧
      sample_e1.size = sample_e1.data.length) ∧
    (build_archive X id true [sample_e1] init_archive none).1 = KRES_OK ∧
    (build_archive X id true [sample_e1] init_archive none).2.raw_data.length = 69 ∧
    get_filename_ptr (build_archive X id true [sample_e1] init_archive none).2.raw_data 44 =
      some (0x03000000, 48) ∧
    ∃ h : header,
      parse_header true (build_archive X id true [sample_e1] init_archive none).2.raw_data
        header_default = some (KRES_OK, h) ∧
      map_find h.offset_table (generate_id X sample_e1.filename) = some 44 ∧
      extract_entry_by_name X true
        (build_archive X id true [sample_e1] init_archive none).2.raw_data h
        sample_e1.filename out = none := by
  obtain ⟨H, h, raw, hb, hparse, hlen, hfind, hptr⟩ := big_endian_sample_archive X
  rw [hb]
  refine ⟨⟨rfl, rfl⟩, rfl, hlen, hptr, h, hparse, hfind, ?_⟩
  simp only [extract_entry_by_name, extract_entry_by_id, hfind, hptr, assign_from_ptr, hlen]
  rfl

/-! ## C3: filename listing -/

/-- Filename listing on a little-endian host: for every archive built by `build_archive` on a
little-endian host from an entry list `E` with `filename_len =
length(filename)`, `size = length(data)` and pairwise distinct ids, and
re-parsed by `parse_header` into `h`: for every pair `(id, offset)` of
`h.offset_table` there is exactly one entry of `E` whose `generate_id` is
`id`, and `extract_filename` at `id` returns `KRES_OK` with that entry's
filename and the filename's length, whatever the old contents of the two
outputs; and a name is the filename of an entry of `E` if and only if it is
returned for some pair of the table. -/
theorem build_archive_extract_filename_listing (X : string → Nat)
    (order : List (Nat × Nat) → List (Nat × Nat)) (E : List entry) (ud : Option byte_vec)
    (horder : ∀ m, (order m).Perm m)
    (hwf : ∀ e ∈ E, e.filename_len = e.filename.length ∧ e.size = e.data.length)
    (hrange : ∀ e ∈ E, e.filename_len < 2 ^ 32)
    (hids : (E.map (fun e => generate_id X e.filename)).Nodup)
    (hud : (ud.getD []).length < 2 ^ 64)
    (hfit : (build_archive X order false E init_archive ud).2.raw_data.length < 2 ^ 64) :
    ∃ h : header,
      parse_header false (build_archive X order false E init_archive ud).2.raw_data
        header_default = some (KRES_OK, h) ∧
      (∀ p ∈ h.offset_table, ∃ e ∈ E,
        generate_id X e.filename = p.1 ∧
        (∀ e1 ∈ E, generate_id X e1.filename = p.1 → e1 = e) ∧
        ∀ (name : string) (len : Nat),
          extract_filename (build_archive X order false E init_archive ud).2.raw_data h p.1
            name len = some (KRES_OK, e.filename, e.filename.length)) ∧
      (∀ f : string, f ∈ E.map (fun e => e.filename) ↔
        ∃ p ∈ h.offset_table, ∀ (name : string) (len : Nat),
          extract_filename (build_archive X order false E init_archive ud).2.raw_data h p.1
            name len = some (KRES_OK, f, f.length)) := by
  obtain ⟨H, h, raw, hb, hparse, hraw, hperm, hloc⟩ :=
    build_archive_records X order E ud horder (fun e he => (hwf e he).2) hids hud hfit
  rw [hb]
  have hext : ∀ e ∈ E, ∀ (name : string) (len : Nat),
      extract_filename raw h (generate_id X e.filename) name len =
        some (KRES_OK, e.filename, e.filename.length) := by
    intro e he name len
    obtain ⟨o, rest, hfind, hd⟩ := hloc e he
    exact extract_filename_at raw hraw h _ o hfind e rest hd (hwf e he).1 (hrange e he) name len
  have hkey : ∀ p ∈ h.offset_table, ∃ e ∈ E, generate_id X e.filename = p.1 := by
    intro p hp
    have h1 : p.1 ∈ (layout_pairs X E (28 + 16 * E.length + (ud.getD []).length)).map
        Prod.fst := List.mem_map_of_mem Prod.fst (hperm.mem_iff.mp hp)
    rw [layout_pairs_keys] at h1
    obtain ⟨e, he, heq⟩ := List.mem_map.mp h1
    exact ⟨e, he, heq⟩
  have hpair : ∀ e ∈ E, ∃ p ∈ h.offset_table, p.1 = generate_id X e.filename := by
    intro e he
    obtain ⟨o, _, hfind, _⟩ := hloc e he
    exact ⟨_, map_find_mem _ _ _ hfind, rfl⟩
  refine ⟨h, hparse, ?_, ?_⟩
  · intro p hp
    obtain ⟨e, he, heq⟩ := hkey p hp
    refine ⟨e, he, heq, ?_, ?_⟩
    · intro e1 he1 h1
      exact List.inj_on_of_nodup_map hids he1 he (h1.trans heq.symm)
    · intro name len
      rw [← heq]
      exact hext e he name len
  · intro f
    constructor
    · intro hf
      obtain ⟨e, he, rfl⟩ := List.mem_map.mp hf
      obtain ⟨p, hp, hpe⟩ := hpair e he
      refine ⟨p, hp, ?_⟩
      intro name len
      rw [hpe]
      exact hext e he name len
    · rintro ⟨p, hp, hx⟩
      obtain ⟨e, he, heq⟩ := hkey p hp
      have h1 := hx [] 0
      rw [← heq, hext e he [] 0] at h1
      simp only [Option.some.injEq, Prod.mk.injEq, true_and] at h1
      rw [← h1.1]
      exact List.mem_map_of_mem (fun e => e.filename) he

/-- Instance of the little-endian filename listing: the two sample entries, a two-byte user section, the table
iterated in reverse. -/
theorem build_archive_extract_filename_listing_witness :
    ((∀ m : List (Nat × Nat), (List.reverse m).Perm m) ∧
      (∀ e ∈ [sample_e1, sample_e2],
        e.filename_len = e.filename.length ∧ e.size = e.data.length) ∧
      (∀ e ∈ [sample_e1, sample_e2], e.filename_len < 2 ^ 32) ∧
      ([sample_e1, sample_e2].map (fun e => generate_id sample_hash e.filename)).Nodup ∧
      ((some [7, 9] : Option byte_vec).getD []).length < 2 ^ 64 ∧
      (build_archive sample_hash List.reverse false [sample_e1, sample_e2] init_archive
        (some [7, 9])).2.raw_data.length < 2 ^ 64) ∧
    ∃ h : header,
      parse_header false (build_archive sample_hash List.reverse false [sample_e1, sample_e2]
        init_archive (some [7, 9])).2.raw_data header_default = some (KRES_OK, h) ∧
      (∀ p ∈ h.offset_table, ∃ e ∈ [sample_e1, sample_e2],
        generate_id sample_hash e.filename = p.1 ∧
        (∀ e1 ∈ [sample_e1, sample_e2], generate_id sample_hash e1.filename = p.1 → e1 = e) ∧
        ∀ (name : string) (len : Nat),
          extract_filename (build_archive sample_hash List.reverse false [sample_e1, sample_e2]
            init_archive (some [7, 9])).2.raw_data h p.1 name len =
              some (KRES_OK, e.filename, e.filename.length)) ∧
      (∀ f : string, f ∈ [sample_e1, sample_e2].map (fun e => e.filename) ↔
        ∃ p ∈ h.offset_table, ∀ (name : string) (len : Nat),
          extract_filename (build_archive sample_hash List.reverse false [sample_e1, sample_e2]
            init_archive (some [7, 9])).2.raw_data h p.1 name len =
              some (KRES_OK, f, f.length)) :=
  ⟨⟨fun m => List.reverse_perm m, by decide, by decide, by decide, by decide, by decide⟩,
    build_archive_extract_filename_listing sample_hash List.reverse [sample_e1, sample_e2]
      (some [7, 9]) (fun m => List.reverse_perm m) (by decide) (by decide) (by decide)
      (by decide) (by decide)⟩

/-- C3 (defect shown). On a big-endian host and whatever the hash, for the
archive that `build_archive` makes from the one entry `("t.x", "hello")` and
that `parse_header` reads back with `KRES_OK`: the parsed table resolves the
id of `"t.x"` to offset 44, and `extract_filename` for that id does not return
`KRES_OK` with the name `"t.x"`. The stored length bytes `00 00 00 03` are
taken as `0x03000000` by `get_filename_ptr`, and the filename is copied from
outside the 69 bytes of the buffer (the result `none`), whatever the old
contents of the two outputs. -/
theorem extract_filename_big_endian_host (X : string → Nat) (name : string) (len : Nat) :
    (sample_e1.filename_len = sample_e1.filename.length ∧
      sample_e1.size = sample_e1.data.length) ∧
    (build_archive X id true [sample_e1] init_archive none).1 = KRES_OK ∧
    (build_archive X id true [sample_e1] init_archive none).2.raw_data.length = 69 ∧
    get_filename_ptr (build_archive X id true [sample_e1] init_archive none).2.raw_data 44 =
      some (0x03000000, 48) ∧
    ∃ h : header,
      parse_header true (build_archive X id true [sample_e1] init_archive none).2.raw_data
        header_default = some (KRES_OK, h) ∧
      (generate_id X sample_e1.filename, 44) ∈ h.offset_table ∧
      extract_filename (build_archive X id true [sample_e1] init_archive none).2.raw_data h
        (generate_id X sample_e1.filename) name len = none := by
  obtain ⟨H, h, raw, hb, hparse, hlen, hfind, hptr⟩ := big_endian_sample_archive X
  rw [hb]
  refine ⟨⟨rfl, rfl⟩, rfl, hlen, hptr, h, hparse, map_find_mem _ _ _ hfind, ?_⟩
  simp only [extract_filename, hfind, hptr, assign_from_ptr, hlen]
  rfl

/-! ## C4 to C7: header regeneration and append -/

/-- C4 (defect shown). Whatever the hash and the archive, `make_header` returns
`KRES_OK` and leaves the header with an empty offset table and an empty
filename table: the tables it computes are overwritten by the default ones of
`tmp_header`. For the archive holding the one entry `("t.x", "hello")` the
claimed pair for that entry's id is therefore missing. -/
theorem make_header_discards_tables (X : string → Nat) (ar : archive) :
    (make_header X ar).1 = KRES_OK ∧
    (make_header X ar).2.header.offset_table = [] ∧
    (make_header X ar).2.header.filename_table = [] ∧
    map_find (make_header X { init_archive with entries := [sample_e1] }).2.header.offset_table
      (generate_id X sample_e1.filename) = none := by
  simp [make_header, header_default, map_find]

/-- C5 (defect shown). Whatever the hash, starting from `init_archive()` the
append of `("t.x", "hello")` returns `KRES_OK`, and the following append of
`("t.x", "foo")`, an entry with the same filename and a different payload,
returns `KRES_OK` as well and leaves both entries in the archive. -/
theorem append_entry_admits_collision (X : string → Nat) :
    sample_e3.filename = sample_e1.filename ∧ sample_e3.data ≠ sample_e1.data ∧
    append_entry X init_archive sample_e1 =
      some (KRES_OK,
        { raw_data := [], header := { header_default with entry_count := 1 },
          entries := [sample_e1] }) ∧
    append_entry X
        { raw_data := [], header := { header_default with entry_count := 1 },
          entries := [sample_e1] } sample_e3 =
      some (KRES_OK,
        { raw_data := [], header := { header_default with entry_count := 2 },
          entries := [sample_e1, sample_e3] }) := by
  refine ⟨rfl, by decide, ?_, ?_⟩
  · simp [append_entry, make_header, init_archive, header_default, map_contains, map_find]
  · simp [append_entry, make_header, header_default, map_contains, map_find]

/-- C6 (counterexample). Take, for any hash, the archive that holds the single
entry `("t.x", "hello")` and whose offset table holds that entry's id, and
append that same entry: the table contains the id and the stored payload is
identical, yet for no hash does the call return `KRES_OK`. -/
theorem append_entry_identical_payload_not_ok :
    (∀ X : string → Nat,
      map_contains (sample_archive X).header.offset_table
        (generate_id X sample_e1.filename) = true ∧
      (sample_archive X).entries = [sample_e1]) ∧
    ¬ ∃ X : string → Nat,
      append_entry X (sample_archive X) sample_e1 = some (KRES_OK, sample_archive X) := by
  refine ⟨fun X => ⟨by simp [sample_archive, map_contains, map_find], rfl⟩, ?_⟩
  rintro ⟨X, h⟩
  simp only [append_entry, sample_archive, map_contains, map_find, if_true, Option.isSome_some]
    at h
  split at h
  · exact Option.noConfusion h
  · simp at h

/-- C6 (amended). For every archive whose offset table holds `generate_id` of
the new entry's filename, and in which the entry that `append_entry` reads for
the comparison exists and has a payload identical to the new one,
`append_entry` returns `KRES_ERROR_DUPLICATE_ENTRY` and leaves the archive
(entries, header and raw_data) unchanged. -/
theorem append_entry_identical_payload (X : string → Nat) (ar : archive) (e stored : entry)
    (hcontains : map_contains ar.header.offset_table (generate_id X e.filename) = true)
    (hstored : ar.entries[generate_id X e.filename]? = some stored)
    (hsame : stored.data = e.data) :
    append_entry X ar e = some (KRES_ERROR_DUPLICATE_ENTRY, ar) := by
  simp [append_entry, hcontains, hstored, hsame]

/-- Witness for the amended C6: the one-entry sample archive under the hash
that sends every name to `0`. -/
theorem append_entry_identical_payload_witness :
    (map_contains (sample_archive zero_hash).header.offset_table
        (generate_id zero_hash sample_e1.filename) = true ∧
      (sample_archive zero_hash).entries[generate_id zero_hash sample_e1.filename]? =
        some sample_e1 ∧
      sample_e1.data = sample_e1.data) ∧
    append_entry zero_hash (sample_archive zero_hash) sample_e1 =
      some (KRES_ERROR_DUPLICATE_ENTRY, sample_archive zero_hash) :=
  ⟨⟨by decide, by decide, rfl⟩,
    append_entry_identical_payload zero_hash (sample_archive zero_hash) sample_e1 sample_e1
      (by decide) (by decide) rfl⟩

/-- C7. Append of a new id: for every archive `ar` and every entry `e` whose
`generate_id` is absent from `ar.header.offset_table`, `append_entry` returns
`KRES_OK`, the entries become the old sequence followed by `e`,
`header.entry_count` becomes the old length plus one, and `header.flags`,
`header.version`, `header.user_section` and `header.user_section_size` are
unchanged. The new length is a `size_t` value. -/
theorem append_entry_new_id (X : string → Nat) (ar : archive) (e : entry)
    (habsent : map_contains ar.header.offset_table (generate_id X e.filename) = false)
    (hlen : ar.entries.length + 1 < 2 ^ 64) :
    ∃ ar1 : archive,
      append_entry X ar e = some (KRES_OK, ar1) ∧
      ar1.entries = ar.entries ++ [e] ∧
      ar1.header.entry_count = ar.entries.length + 1 ∧
      ar1.header.flags = ar.header.flags ∧
      ar1.header.version = ar.header.version ∧
      ar1.header.user_section = ar.header.user_section ∧
      ar1.header.user_section_size = ar.header.user_section_size := by
  refine ⟨(make_header X { ar with entries := ar.entries ++ [e] }).2, ?_, ?_⟩
  · simp only [append_entry, habsent, Bool.false_eq_true, if_false]
    rfl
  · refine ⟨rfl, ?_, rfl, rfl, rfl, rfl⟩
    simp only [make_header, List.length_append, List.length_cons, List.length_nil]
    exact Nat.mod_eq_of_lt hlen

/-- Witness for C7: the one-entry sample archive and the second sample entry. -/
theorem append_entry_new_id_witness :
    (map_contains (sample_archive sample_hash).header.offset_table
        (generate_id sample_hash sample_e2.filename) = false ∧
      (sample_archive sample_hash).entries.length + 1 < 2 ^ 64) ∧
    ∃ ar1 : archive,
      append_entry sample_hash (sample_archive sample_hash) sample_e2 = some (KRES_OK, ar1) ∧
      ar1.entries = (sample_archive sample_hash).entries ++ [sample_e2] ∧
      ar1.header.entry_count = (sample_archive sample_hash).entries.length + 1 ∧
      ar1.header.flags = (sample_archive sample_hash).header.flags ∧
      ar1.header.version = (sample_archive sample_hash).header.version ∧
      ar1.header.user_section = (sample_archive sample_hash).header.user_section ∧
      ar1.header.user_section_size = (sample_archive sample_hash).header.user_section_size :=
  ⟨⟨by decide, by decide⟩,
    append_entry_new_id sample_hash (sample_archive sample_hash) sample_e2 (by decide)
      (by decide)⟩

/-! ## C8: bad magic -/

/-- Fast rejection on bad magic on a little-endian host: for every buffer of
at least 4 bytes whose first four bytes, read as a little-endian 32-bit
integer, differ from `KRES_MAGIC`, and for every old content of the output
header, `parse_header` returns `KRES_ERROR_INVALID_ARCHIVE` and changes
nothing of the header but its `magic`: `version`, `flags`, `entry_count`,
`offset_table`, `user_section_size` and `user_section` are the old ones. -/
theorem parse_header_bad_magic (data : byte_vec) (h : header)
    (hlen : 4 ≤ data.length)
    (hmagic : le_value (data.take 4) ≠ KRES_MAGIC) :
    parse_header false data h =
      some (KRES_ERROR_INVALID_ARCHIVE, { h with magic := le_value (data.take 4) }) := by
  match data, hlen with
  | b0 :: b1 :: b2 :: b3 :: rest, _ =>
    have h0 := b0.isLt
    have h1 := b1.isLt
    have h2 := b2.isLt
    have h3 := b3.isLt
    have hv : b0.val ||| (b1.val <<< 8) ||| (b2.val <<< 16) ||| (b3.val <<< 24) =
        le_value [b0, b1, b2, b3] := by
      rw [or_shl _ _ 8 (by omega), or_shl _ _ 16 (by omega), or_shl _ _ 24 (by omega)]
      simp only [le_value]
      omega
    have hr : byte_reader.read_u32 false ⟨b0 :: b1 :: b2 :: b3 :: rest, 0⟩ h.magic =
        some (KRES_OK, ⟨b0 :: b1 :: b2 :: b3 :: rest, 4⟩, le_value [b0, b1, b2, b3]) := by
      simp only [byte_reader.read_u32, byte_reader.at, le32_to_host, host_to_le32]
      simp [hv]
    simp only [List.take] at hmagic ⊢
    simp only [parse_header, hr, ne_eq, not_true_eq_false, if_false, hmagic, not_false_eq_true,
      if_true]

/-- Instance of the little-endian rejection: the four bytes `KRES` in the wrong order, followed by a
byte. -/
theorem parse_header_bad_magic_witness :
    (4 ≤ ([0x4B, 0x52, 0x45, 0x53, 1] : byte_vec).length ∧
      le_value (([0x4B, 0x52, 0x45, 0x53, 1] : byte_vec).take 4) ≠ KRES_MAGIC) ∧
    parse_header false [0x4B, 0x52, 0x45, 0x53, 1] header_default =
      some (KRES_ERROR_INVALID_ARCHIVE,
        { header_default with
          magic := le_value (([0x4B, 0x52, 0x45, 0x53, 1] : byte_vec).take 4) }) :=
  ⟨⟨by decide, by decide⟩,
    parse_header_bad_magic [0x4B, 0x52, 0x45, 0x53, 1] header_default (by decide) (by decide)⟩

/-- C8 (defect shown). On a big-endian host `read_u32` swaps the value that it
has already put together from the bytes, so the magic test accepts the bytes
`4B 52 45 53`, which read as a little-endian integer are `0x5345524B` and not
`KRES_MAGIC`. On the five bytes `4B 52 45 53 01` `parse_header` goes on to the
version and returns `KRES_ERROR_BUFFER_OVERFLOW`, not
`KRES_ERROR_INVALID_ARCHIVE`; and the bytes that `serialize_archive` produces
for the empty archive on that host, whose first four are the same, are parsed
with `KRES_OK`. -/
theorem parse_header_bad_magic_big_endian_host :
    4 ≤ ([0x4B, 0x52, 0x45, 0x53, 1] : byte_vec).length ∧
    le_value (([0x4B, 0x52, 0x45, 0x53, 1] : byte_vec).take 4) = 0x5345524B ∧
    le_value (([0x4B, 0x52, 0x45, 0x53, 1] : byte_vec).take 4) ≠ KRES_MAGIC ∧
    parse_header true [0x4B, 0x52, 0x45, 0x53, 1] header_default =
      some (KRES_ERROR_BUFFER_OVERFLOW, header_default) ∧
    (serialize_archive id true init_archive []).2.take 4 = [0x4B, 0x52, 0x45, 0x53] ∧
    parse_header true (serialize_archive id true init_archive []).2 header_default =
      some (KRES_OK, header_default) := by
  refine ⟨by decide, by decide, by decide, by decide, by decide, by decide⟩

/-! ## C9: truncated headers -/

/-- C9. Truncated headers are rejected: for every buffer `d` (of a `size_t`
length) on which `parse_header` returns `KRES_OK` with decoded `entry_count`
`n` and `user_section_size` `u`, and for every `k < 28 + 16 * n + u`,
`parse_header` on the first `k` bytes of `d` returns
`KRES_ERROR_BUFFER_OVERFLOW`; being a returned result, it involves no read
outside the `k` bytes. This holds on either host and for every old content of
the output header. -/
theorem parse_header_truncated (be : Bool) (d : byte_vec) (h0 h : header) (k : Nat)
    (hfit : d.length < 2 ^ 64)
    (hok : parse_header be d h0 = some (KRES_OK, h))
    (hk : k < 28 + 16 * h.entry_count + h.user_section_size) :
    ∃ h1 : header, parse_header be (d.take k) h0 = some (KRES_ERROR_BUFFER_OVERFLOW, h1) := by
  obtain ⟨i1, i2, cm, hn, hu⟩ := parse_header_ok_inv be d h0 h hfit hok
  generalize h.entry_count = n at *
  generalize h.user_section_size = u at *
  have hkd : k ≤ d.length := by
    by_cases cu : u > 0
    · have := i2 cu; omega
    · omega
  have hlen : (d.take k).length = k := by rw [List.length_take]; omega
  have hfit1 : (d.take k).length < 2 ^ 64 := by omega
  unfold parse_header
  by_cases c0 : 0 + 4 ≤ k
  swap
  · simp only [read_u32_overflow be (d.take k) 0 _ (by omega) (by omega)]
    exact ⟨_, rfl⟩
  simp only [read_u32_in be (d.take k) 0 _ hfit1 (by omega), peek_u32_take be d k 0 c0, cm,
    ne_eq, not_true_eq_false, if_false]
  by_cases c1 : 0 + 4 + 4 ≤ k
  swap
  · simp only [read_u32_overflow be (d.take k) (0 + 4) _ (by omega) (by omega)]
    exact ⟨_, rfl⟩
  simp only [read_u32_in be (d.take k) (0 + 4) _ hfit1 (by omega), ne_eq, not_true_eq_false,
    if_false]
  by_cases c2 : 0 + 4 + 4 + 4 ≤ k
  swap
  · simp only [read_u32_overflow be (d.take k) (0 + 4 + 4) _ (by omega) (by omega)]
    exact ⟨_, rfl⟩
  simp only [read_u32_in be (d.take k) (0 + 4 + 4) _ hfit1 (by omega), ne_eq,
    not_true_eq_false, if_false]
  by_cases c3 : 0 + 4 + 4 + 4 + 8 ≤ k
  swap
  · simp only [read_u64_overflow be (d.take k) (0 + 4 + 4 + 4) _ (by omega) (by omega)]
    exact ⟨_, rfl⟩
  simp only [read_u64_in be (d.take k) (0 + 4 + 4 + 4) _ hfit1 (by omega),
    peek_u64_take be d k (0 + 4 + 4 + 4) c3, ← hn, ne_eq, not_true_eq_false, if_false]
  by_cases c4 : 0 + 4 + 4 + 4 + 8 + 16 * n ≤ k
  swap
  · obtain ⟨r, h1, e⟩ := parse_header_loop_overflow be (d.take k) hfit1 n (0 + 4 + 4 + 4 + 8)
      { magic := KRES_MAGIC, version := peek_u32 be (d.take k) (0 + 4),
        flags := peek_u32 be (d.take k) (0 + 4 + 4), entry_count := n,
        offset_table := h0.offset_table, user_section_size := h0.user_section_size,
        user_section := h0.user_section, filename_table := h0.filename_table }
      (by omega) (by omega) (by omega)
    rw [e]
    exact ⟨_, rfl⟩
  obtain ⟨t, ht⟩ := parse_header_loop_in be (d.take k) hfit1 n (0 + 4 + 4 + 4 + 8)
    { magic := KRES_MAGIC, version := peek_u32 be (d.take k) (0 + 4),
      flags := peek_u32 be (d.take k) (0 + 4 + 4), entry_count := n,
      offset_table := h0.offset_table, user_section_size := h0.user_section_size,
      user_section := h0.user_section, filename_table := h0.filename_table } (by omega)
  simp only [ht, ne_eq, not_true_eq_false, if_false]
  by_cases c5 : 0 + 4 + 4 + 4 + 8 + 16 * n + 8 ≤ k
  swap
  · simp only [read_u64_overflow be (d.take k) (0 + 4 + 4 + 4 + 8 + 16 * n) _ (by omega)
      (by omega)]
    exact ⟨_, rfl⟩
  have e20 : 0 + 4 + 4 + 4 + 8 + 16 * n = 20 + 16 * n := by omega
  have hu1 : peek_u64 be (d.take k) (0 + 4 + 4 + 4 + 8 + 16 * n) = u := by
    rw [peek_u64_take be d k _ c5, e20, ← hu]
  have cu : u > 0 := by omega
  have i3 := i2 cu
  simp only [read_u64_in be (d.take k) (0 + 4 + 4 + 4 + 8 + 16 * n) _ hfit1 (by omega), hu1,
    ne_eq, not_true_eq_false, if_false, cu, if_true,
    read_bytes_overflow (d.take k) (0 + 4 + 4 + 4 + 8 + 16 * n + 8) u _ (by omega) (by omega)]
  exact ⟨_, rfl⟩
/-- Witness for C9: the sample bytes, whose header takes 46 bytes, cut after 45
bytes. -/
theorem parse_header_truncated_witness :
    (sample_bytes.length < 2 ^ 64 ∧
      parse_header false sample_bytes header_default = some (KRES_OK, sample_header) ∧
      45 < 28 + 16 * sample_header.entry_count + sample_header.user_section_size) ∧
    ∃ h1 : header,
      parse_header false (sample_bytes.take 45) header_default =
        some (KRES_ERROR_BUFFER_OVERFLOW, h1) :=
  ⟨⟨by decide, by decide, by decide⟩,
    parse_header_truncated false sample_bytes header_default sample_header 45 (by decide)
      (by decide) (by decide)⟩

/-! ## C10: unchecked filename reads -/

/-- C10 (defect shown). On the empty buffer and a header whose offset table
maps id `5` to offset `0` (so `off + 4 > |data|`), `extract_entry_by_id` and
`extract_filename` do not return `KRES_ERROR_BUFFER_OVERFLOW`: on either host
and whatever the old outputs, both read `data[0]` outside the buffer (the
result `none`), through the unchecked `get_filename_ptr`. On the four bytes
`FF FF FF FF` the stored filename length `2^32 - 1` reaches past the buffer
and both copy the filename from outside it. -/
theorem extract_reads_out_of_bounds (be : Bool) (out : entry) (name : string) (len : Nat) :
    map_find ({ header_default with offset_table := [(5, 0)] } : header).offset_table 5 =
      some 0 ∧
    get_filename_ptr [] 0 = none ∧
    extract_entry_by_id be [] { header_default with offset_table := [(5, 0)] } 5 out = none ∧
    extract_filename [] { header_default with offset_table := [(5, 0)] } 5 name len = none ∧
    get_filename_ptr [255, 255, 255, 255] 0 = some (2 ^ 32 - 1, 4) ∧
    extract_entry_by_id be [255, 255, 255, 255]
      { header_default with offset_table := [(5, 0)] } 5 out = none ∧
    extract_filename [255, 255, 255, 255]
      { header_default with offset_table := [(5, 0)] } 5 name len = none := by
  refine ⟨rfl, rfl, rfl, rfl, by decide, ?_, ?_⟩
  · have h : get_filename_ptr [255, 255, 255, 255] 0 = some (2 ^ 32 - 1, 4) := by decide
    simp [extract_entry_by_id, map_find, h, assign_from_ptr]
  · have h : get_filename_ptr [255, 255, 255, 255] 0 = some (2 ^ 32 - 1, 4) := by decide
    simp [extract_filename, map_find, h, assign_from_ptr]

/-! ## C11: the bounds check of the reader -/

/-- C11 (defect shown). The bounds check `pos + count > size` is computed in
64 bits and wraps. On the 28 header bytes whose user section size is
`2^64 - 1`, `read_bytes` at position 28 passes the check (`28 + count` wraps to
`27`) and hands `assign` a range outside the buffer, so `parse_header` does
not return `KRES_ERROR_BUFFER_OVERFLOW` (the result `none`). Likewise
`read_u32` and `read_u64` at position `2^64 - 2` of an eight-byte buffer pass
their checks and index the buffer out of range. -/
theorem reader_bounds_check_wraps (be : Bool) (out : Nat) (bytes_out : byte_vec) :
    wrap_bytes.length = 28 ∧
    byte_reader.read_bytes ⟨wrap_bytes, 28⟩ (2 ^ 64 - 1) bytes_out = none ∧
    parse_header false wrap_bytes header_default = none ∧
    byte_reader.read_u32 be ⟨[0, 0, 0, 0, 0, 0, 0, 0], 2 ^ 64 - 2⟩ out = none ∧
    byte_reader.read_u64 be ⟨[0, 0, 0, 0, 0, 0, 0, 0], 2 ^ 64 - 2⟩ out = none := by
  refine ⟨rfl, ?_, by decide, ?_, ?_⟩
  · simp [byte_reader.read_bytes, wrap_bytes]
  · simp [byte_reader.read_u32, byte_reader.at]
  · simp [byte_reader.read_u64, byte_reader.read_u64_loop, byte_reader.at]

/-! ## C12: version tolerance of the in-memory validator -/

/-- C12. Version tolerance of the in-memory validator, on either host and for
every buffer `d`: `validate_archive(d)` is true if and only if `parse_header`
on `d` and a fresh header returns `KRES_OK` and the major component of the
decoded version equals the major component of `KRES_VERSION`. Whenever the
parse returns `KRES_OK`, the result is that comparison of the two major
components alone, where the major component of a version is its bits 16 to 23,
the one of `KRES_VERSION` is `0`, and the major component of a version packed
by `VERSION_ENCODE` from three bytes is the first of them, whatever the minor
and the patch byte. -/
theorem validate_archive_iff (be : Bool) (d : byte_vec) :
    (validate_archive be d = some true ↔
      ∃ h : header, parse_header be d header_default = some (KRES_OK, h) ∧
        (version_decode h.version).major = (version_decode KRES_VERSION).major) ∧
    (∀ h : header, parse_header be d header_default = some (KRES_OK, h) →
      validate_archive be d =
        some (decide ((version_decode h.version).major =
          (version_decode KRES_VERSION).major))) ∧
    (∀ v : Nat, (version_decode v).major = (v / 2 ^ 16) % 2 ^ 8) ∧
    (version_decode KRES_VERSION).major = 0 ∧
    (∀ maj min pat : Nat, maj < 256 → min < 256 → pat < 256 →
      (version_decode (VERSION_ENCODE maj min pat)).major = maj) := by
  have hval : ∀ h : header, parse_header be d header_default = some (KRES_OK, h) →
      validate_archive be d =
        some (decide ((version_decode h.version).major =
          (version_decode KRES_VERSION).major)) := by
    intro h hp
    have hm := parse_header_ok_magic be d header_default h hp
    simp only [validate_archive, hp, hm, ne_eq, not_true_eq_false, if_false, beq_self_eq_true,
      Bool.true_and]
    rw [Bool.beq_eq_decide_eq]
  refine ⟨⟨?_, ?_⟩, hval, ?_, by decide, ?_⟩
  · intro hv
    cases hp : parse_header be d header_default with
    | none => simp [validate_archive, hp] at hv
    | some res =>
      obtain ⟨err, h⟩ := res
      by_cases he : err = KRES_OK
      · subst he
        rw [hval h hp] at hv
        simp only [Option.some.injEq, decide_eq_true_eq] at hv
        exact ⟨h, rfl, hv⟩
      · simp [validate_archive, hp, he] at hv
  · rintro ⟨h, hp, hmaj⟩
    rw [hval h hp]
    simp [hmaj]
  · intro v
    simp [version_decode, Nat.shiftRight_eq_div_pow]
  · intro maj min pat h1 h2 h3
    have e : VERSION_ENCODE maj min pat = maj * 65536 + min * 256 + pat := by
      simp only [VERSION_ENCODE, Nat.shiftLeft_eq]
      rw [Nat.mod_eq_of_lt (show maj < 2 ^ 32 by omega),
        Nat.mod_eq_of_lt (show min < 2 ^ 32 by omega),
        Nat.mod_eq_of_lt (show pat < 2 ^ 32 by omega),
        Nat.mod_eq_of_lt (show maj * 2 ^ 16 < 2 ^ 32 by omega),
        Nat.mod_eq_of_lt (show min * 2 ^ 8 < 2 ^ 32 by omega)]
      rw [lor_add (maj * 2 ^ 16) (min * 2 ^ 8) 16 (by omega) (by omega),
        lor_add _ pat 8 (by omega) (by omega)]
      norm_num
    simp only [version_decode, e, Nat.shiftRight_eq_div_pow]
    omega

/-! ## C13 and C14: the file validator and the streaming parse -/

/-- C13 (defect shown). The file overload of `validate_archive` answers the
wrong way round on either host: for a path that names no file it returns
`true`, and for every regular file that opens, whatever its contents, it
returns `false`, also for the sample archive bytes that the in-memory
validator accepts. -/
theorem validate_archive_filename_inverted (be : Bool) (contents : byte_vec) :
    validate_archive_filename be no_file = some true ∧
    validate_archive_filename be (regular_file contents) = some false ∧
    validate_archive false sample_bytes = some true ∧
    validate_archive_filename false (regular_file sample_bytes) = some false := by
  refine ⟨rfl, rfl, by decide, rfl⟩

/-- C14 (defect shown). On either host, for every archive and every regular
file that opens, `preload_archive` returns `KRES_OK` right after the open and
leaves the archive as it was: for the empty file, on which `parse_header`
returns `KRES_ERROR_BUFFER_OVERFLOW`; for a file whose first bytes are not the
magic, on which `parse_header` returns `KRES_ERROR_INVALID_ARCHIVE`; and for
the sample archive bytes, whose parsed header has one entry while the header
of the archive keeps none. -/
theorem preload_archive_reads_nothing (be : Bool) (ar : archive) (contents : byte_vec) :
    preload_archive be ar (regular_file contents) = some (KRES_OK, ar) ∧
    parse_header false [] header_default =
      some (KRES_ERROR_BUFFER_OVERFLOW, header_default) ∧
    parse_header false [1, 2, 3, 4] header_default =
      some (KRES_ERROR_INVALID_ARCHIVE, { header_default with magic := 0x04030201 }) ∧
    parse_header false sample_bytes header_default = some (KRES_OK, sample_header) ∧
    preload_archive false init_archive (regular_file sample_bytes) =
      some (KRES_OK, init_archive) ∧
    sample_header.entry_count = 1 ∧ init_archive.header.entry_count = 0 := by
  refine ⟨rfl, by decide, by decide, by decide, rfl, rfl, rfl⟩

/-! ## C15 and C16: lookup by name and missing ids -/

theorem get_filename_ptr_snd (data : byte_vec) (offset len ptr : Nat)
    (h : get_filename_ptr data offset = some (len, ptr)) : ptr = offset + 4 := by
  unfold get_filename_ptr at h
  simp only [Option.bind_eq_bind] at h
  cases h0 : data[offset]? with
  | none => simp [h0] at h
  | some b0 =>
    cases h1 : data[(offset + 1) % 2 ^ 64]? with
    | none =>
      simp only [h0, h1, Option.some_bind, Option.none_bind] at h
      exact Option.noConfusion h
    | some b1 =>
      cases h2 : data[(offset + 2) % 2 ^ 64]? with
      | none =>
        simp only [h0, h1, h2, Option.some_bind, Option.none_bind] at h
        exact Option.noConfusion h
      | some b2 =>
        cases h3 : data[(offset + 3) % 2 ^ 64]? with
        | none =>
          simp only [h0, h1, h2, h3, Option.some_bind, Option.none_bind] at h
          exact Option.noConfusion h
        | some b3 =>
          simp only [h0, h1, h2, h3, Option.some_bind, Option.some.injEq, Prod.mk.injEq] at h
          exact h.2.symm

theorem assign_from_ptr_some (data : byte_vec) (ptr len : Nat) (s : string)
    (h : assign_from_ptr data ptr len = some s) :
    s = (data.drop ptr).take len ∧ ptr + len ≤ data.length := by
  unfold assign_from_ptr at h
  split at h
  · simp only [Option.some.injEq] at h
    exact ⟨h.symm, by assumption⟩
  · exact Option.noConfusion h

/-- What `extract_entry_by_id` returns with `KRES_OK`: the length and the
filename stored at the offset resolved for the id. -/
theorem extract_entry_by_id_ok_filename (be : Bool) (data : byte_vec) (h : header)
    (entry_id : Nat) (out out1 : entry)
    (hok : extract_entry_by_id be data h entry_id out = some (KRES_OK, out1)) :
    ∃ off : Nat, map_find h.offset_table entry_id = some off ∧
      out1.filename = (data.drop (off + 4)).take out1.filename_len ∧
      off + 4 + out1.filename_len ≤ data.length := by
  simp only [extract_entry_by_id] at hok
  split at hok
  · simp at hok
  rename_i off hfind
  split at hok
  · exact Option.noConfusion hok
  rename_i len ptr hptr
  have hp := get_filename_ptr_snd data off len ptr hptr
  subst hp
  split at hok
  · exact Option.noConfusion hok
  rename_i name hname
  obtain ⟨hn1, hn2⟩ := assign_from_ptr_some data _ _ _ hname
  have key : ∀ (c s : Nat) (dt : byte_vec),
      (({ filename_len := len, filename := name, crc32 := c, size := s, data := dt } : entry) =
        out1) →
      ∃ off : Nat, map_find h.offset_table entry_id = some off ∧
        out1.filename = (data.drop (off + 4)).take out1.filename_len ∧
        off + 4 + out1.filename_len ≤ data.length := by
    intro c s dt e
    subst e
    exact ⟨off, hfind, hn1, hn2⟩
  split at hok
  · exact Option.noConfusion hok
  split at hok
  · simp only [Option.some.injEq, Prod.mk.injEq] at hok
    exact absurd hok.1 (by assumption)
  split at hok
  · exact Option.noConfusion hok
  split at hok
  · simp only [Option.some.injEq, Prod.mk.injEq] at hok
    exact absurd hok.1 (by assumption)
  split at hok
  · exact Option.noConfusion hok
  split at hok
  · simp only [Option.some.injEq, Prod.mk.injEq] at hok
    exact absurd hok.1 (by assumption)
  · simp only [Option.some.injEq, Prod.mk.injEq, true_and] at hok
    exact key _ _ _ hok

/-- C15 (counterexample). Whatever the hash, take the header that sends the id
of the name `"t.x"` to offset `0` and the buffer that holds there the record
of the entry named `"f"`: lookup by the name `"t.x"` returns `KRES_OK` with
the entry named `"f"`, not `KRES_ERROR_ENTRY_NOT_FOUND`. -/
theorem extract_entry_by_name_other_file :
    (∀ (X : string → Nat) (out : entry),
      extract_entry_by_name X false (record_bytes false sample_e2) (collide_header X)
        sample_e1.filename out = some (KRES_OK, sample_e2)) ∧
    sample_e2.filename ≠ sample_e1.filename ∧
    ((record_bytes false sample_e2).drop 4).take 1 = sample_e2.filename := by
  refine ⟨?_, by decide, by decide⟩
  intro X out
  exact extract_entry_by_id_at (record_bytes false sample_e2) (by decide) (collide_header X)
    _ 0 (by simp [collide_header, map_find]) sample_e2 [] (by simp) rfl rfl (by decide)
    (by decide) out

/-- C15 (amended). For every buffer, header and filename `f`, on either host:
`extract_entry_by_name` does what `extract_entry_by_id` does for
`generate_id(f)`, and when it returns `KRES_OK` the filename it returns is the
one stored in the record at the offset resolved for that id, the
`filename_len` bytes that follow the four length bytes, which lie in the
buffer. The stored filename is not compared with `f`. -/
theorem extract_entry_by_name_stored_filename (X : string → Nat) (be : Bool) (data : byte_vec)
    (h : header) (f : string) (out out1 : entry)
    (hok : extract_entry_by_name X be data h f out = some (KRES_OK, out1)) :
    extract_entry_by_name X be data h f out =
      extract_entry_by_id be data h (generate_id X f) out ∧
    ∃ off : Nat, map_find h.offset_table (generate_id X f) = some off ∧
      out1.filename = (data.drop (off + 4)).take out1.filename_len ∧
      off + 4 + out1.filename_len ≤ data.length :=
  ⟨rfl, extract_entry_by_id_ok_filename be data h (generate_id X f) out out1 hok⟩

/-- Witness for the amended C15: the lookup of `"t.x"` in the buffer that holds
the record of `"f"` at the resolved offset. -/
theorem extract_entry_by_name_stored_filename_witness :
    extract_entry_by_name sample_hash false (record_bytes false sample_e2)
      (collide_header sample_hash) sample_e1.filename sample_e1 = some (KRES_OK, sample_e2) ∧
    (extract_entry_by_name sample_hash false (record_bytes false sample_e2)
        (collide_header sample_hash) sample_e1.filename sample_e1 =
      extract_entry_by_id false (record_bytes false sample_e2) (collide_header sample_hash)
        (generate_id sample_hash sample_e1.filename) sample_e1 ∧
    ∃ off : Nat,
      map_find (collide_header sample_hash).offset_table
        (generate_id sample_hash sample_e1.filename) = some off ∧
      sample_e2.filename =
        ((record_bytes false sample_e2).drop (off + 4)).take sample_e2.filename_len ∧
      off + 4 + sample_e2.filename_len ≤ (record_bytes false sample_e2).length) :=
  ⟨by decide,
    extract_entry_by_name_stored_filename sample_hash false (record_bytes false sample_e2)
      (collide_header sample_hash) sample_e1.filename sample_e1 sample_e2 (by decide)⟩

/-- C16. Missing ids are reported, not read, on either host: for every header
and every id that is not a key of its offset table, `extract_entry_by_id` and
`extract_filename` return `KRES_ERROR_ENTRY_NOT_FOUND` and leave their outputs
as they were, and so does `extract_entry_by_name` for every filename whose
`generate_id` is not a key. The result is the same for every buffer, the empty
one included, so no byte of the buffer is read. -/
theorem extract_missing_id (X : string → Nat) (be : Bool) (h : header) (entry_id : Nat)
    (f : string)
    (hid : entry_id ∉ h.offset_table.map Prod.fst)
    (hf : generate_id X f ∉ h.offset_table.map Prod.fst) :
    ∀ (data : byte_vec) (out : entry) (name : string) (len : Nat),
      extract_entry_by_id be data h entry_id out = some (KRES_ERROR_ENTRY_NOT_FOUND, out) ∧
      extract_filename data h entry_id name len =
        some (KRES_ERROR_ENTRY_NOT_FOUND, name, len) ∧
      extract_entry_by_name X be data h f out = some (KRES_ERROR_ENTRY_NOT_FOUND, out) := by
  intro data out name len
  have h1 := (map_find_eq_none h.offset_table entry_id).mpr hid
  have h2 := (map_find_eq_none h.offset_table (generate_id X f)).mpr hf
  simp [extract_entry_by_id, extract_filename, extract_entry_by_name, h1, h2]

/-- Witness for C16: the sample header, whose only key is the id of `"t.x"`,
with the id `5` and the name `"f"`. -/
theorem extract_missing_id_witness :
    (5 ∉ sample_header.offset_table.map Prod.fst ∧
      generate_id sample_hash sample_e2.filename ∉ sample_header.offset_table.map Prod.fst) ∧
    ∀ (data : byte_vec) (out : entry) (name : string) (len : Nat),
      extract_entry_by_id false data sample_header 5 out =
        some (KRES_ERROR_ENTRY_NOT_FOUND, out) ∧
      extract_filename data sample_header 5 name len =
        some (KRES_ERROR_ENTRY_NOT_FOUND, name, len) ∧
      extract_entry_by_name sample_hash false data sample_header sample_e2.filename out =
        some (KRES_ERROR_ENTRY_NOT_FOUND, out) :=
  ⟨⟨by decide, by decide⟩,
    extract_missing_id sample_hash false sample_header 5 sample_e2.filename (by decide)
      (by decide)⟩

/-! ## C17: entry integrity -/

/-- C17. Entry integrity check, for every checksum function `crc32` (its result
taken as the 32-bit value it returns) and every entry `e`: `validate_entry(e)`
is true if and only if `crc32` of the whole of `e.data` equals `e.crc32`, and
the result is the same whatever `e.filename`, `e.filename_len` and `e.size`
are. -/
theorem validate_entry_iff (crc32 : byte_vec → Nat) (e : entry) :
    (validate_entry crc32 e = true ↔ crc32 e.data % 2 ^ 32 = e.crc32) ∧
    ∀ (filename : string) (filename_len size : Nat),
      validate_entry crc32
          { e with filename := filename, filename_len := filename_len, size := size } =
        validate_entry crc32 e := by
  refine ⟨?_, fun _ _ _ => rfl⟩
  simp [validate_entry]

/-! ## C18: entry_count and the offset table -/

/-- Duplicate ids, the count and the table: for the two entries `("t.x", "hello")` and
`("t.x", "foo")`, which share their filename and so their id, and for no user
data: whatever the hash, the iteration order and the host, `build_archive` on
a fresh archive leaves `entry_count = 2` and an offset table of one pair. -/
theorem build_archive_entry_count_duplicate_ids :
    (∀ (X : string → Nat) (order : List (Nat × Nat) → List (Nat × Nat)) (be : Bool),
      (build_archive X order be [sample_e1, sample_e3] init_archive none).2.header.entry_count
        = 2 ∧
      (build_archive X order be [sample_e1, sample_e3] init_archive
        none).2.header.offset_table.length = 1) ∧
    ¬ ∃ (X : string → Nat) (order : List (Nat × Nat) → List (Nat × Nat)) (be : Bool),
      (build_archive X order be [sample_e1, sample_e3] init_archive none).2.header.entry_count
        = (build_archive X order be [sample_e1, sample_e3] init_archive
            none).2.header.offset_table.length := by
  have key : ∀ (X : string → Nat) (order : List (Nat × Nat) → List (Nat × Nat)) (be : Bool),
      (build_archive X order be [sample_e1, sample_e3] init_archive none).2.header.entry_count
        = 2 ∧
      (build_archive X order be [sample_e1, sample_e3] init_archive
        none).2.header.offset_table.length = 1 := by
    intro X order be
    rw [build_archive_eq]
    have hf : sample_e3.filename = sample_e1.filename := rfl
    simp [layout_loop, header_default, map_assign, hf]
  refine ⟨key, ?_⟩
  rintro ⟨X, order, be, h⟩
  obtain ⟨h1, h2⟩ := key X order be
  rw [h1, h2] at h
  exact absurd h (by decide)

/-- With distinct ids the count and the table agree: for every entry list `E` whose ids are pairwise distinct
(and whose length is a `size_t` value), every optional user data, every
iteration order and either host, the header produced by `build_archive` on a
fresh archive has `entry_count` equal to the number of pairs of its offset
table, which is the number of pairs that `serialize_archive` writes after the
count. -/
theorem build_archive_entry_count (X : string → Nat)
    (order : List (Nat × Nat) → List (Nat × Nat)) (be : Bool) (E : List entry)
    (ud : Option byte_vec)
    (horder : ∀ m, (order m).Perm m)
    (hids : (E.map (fun e => generate_id X e.filename)).Nodup)
    (hlen : E.length < 2 ^ 64) :
    (build_archive X order be E init_archive ud).2.header.entry_count =
      (build_archive X order be E init_archive ud).2.header.offset_table.length ∧
    (build_archive X order be E init_archive ud).2.header.entry_count =
      (order (build_archive X order be E init_archive ud).2.header.offset_table).length := by
  rw [build_archive_eq]
  simp only
  rw [(horder _).length_eq, layout_loop_offset_table X E _ _ hids (by simp [header_default]),
    (layout_loop_frame X E _ _).2.2.2.1]
  simp only [header_default, List.nil_append, layout_pairs_length, and_self]
  exact Nat.mod_eq_of_lt hlen

/-- Instance of the agreement under distinct ids: the two sample entries with
distinct names. -/
theorem build_archive_entry_count_witness :
    ((∀ m : List (Nat × Nat), (List.reverse m).Perm m) ∧
      ([sample_e1, sample_e2].map (fun e => generate_id sample_hash e.filename)).Nodup ∧
      [sample_e1, sample_e2].length < 2 ^ 64) ∧
    ((build_archive sample_hash List.reverse false [sample_e1, sample_e2] init_archive
        none).2.header.entry_count =
      (build_archive sample_hash List.reverse false [sample_e1, sample_e2] init_archive
        none).2.header.offset_table.length ∧
    (build_archive sample_hash List.reverse false [sample_e1, sample_e2] init_archive
        none).2.header.entry_count =
      (List.reverse (build_archive sample_hash List.reverse false [sample_e1, sample_e2]
        init_archive none).2.header.offset_table).length) :=
  ⟨⟨fun m => List.reverse_perm m, by decide, by decide⟩,
    build_archive_entry_count sample_hash List.reverse false [sample_e1, sample_e2] none
      (fun m => List.reverse_perm m) (by decide) (by decide)⟩

/-- C18 (defect shown). For the two entries `("t.x", "hello")` and
`("t.x", "foo")`, which share their filename and so their id, and no user
data: whatever the hash, the iteration order and the host, `build_archive` on
a fresh archive returns `KRES_OK` and leaves `entry_count = 2` with an offset
table of one pair, so `serialize_archive` writes the count `2` and a single
pair after it. Under the sample hash the 92 bytes produced are not read back:
`parse_header` takes the user section size and the start of the first record
for a second pair and returns `KRES_ERROR_BUFFER_OVERFLOW`, on either host. -/
theorem build_archive_duplicate_ids (X : string → Nat)
    (order : List (Nat × Nat) → List (Nat × Nat)) (be : Bool) :
    sample_e3.filename = sample_e1.filename ∧
    (build_archive X order be [sample_e1, sample_e3] init_archive none).1 = KRES_OK ∧
    (build_archive X order be [sample_e1, sample_e3] init_archive none).2.header.entry_count
      = 2 ∧
    (build_archive X order be [sample_e1, sample_e3] init_archive
      none).2.header.offset_table.length = 1 ∧
    (build_archive sample_hash id false [sample_e1, sample_e3] init_archive
      none).2.raw_data.length = 92 ∧
    (parse_header false
      (build_archive sample_hash id false [sample_e1, sample_e3] init_archive none).2.raw_data
      header_default).map Prod.fst = some KRES_ERROR_BUFFER_OVERFLOW ∧
    (parse_header true
      (build_archive sample_hash id true [sample_e1, sample_e3] init_archive none).2.raw_data
      header_default).map Prod.fst = some KRES_ERROR_BUFFER_OVERFLOW := by
  refine ⟨rfl, ?_, ?_, ?_, by decide, by decide, by decide⟩
  · rw [build_archive_eq]
  · rw [build_archive_eq]
    have hf : sample_e3.filename = sample_e1.filename := rfl
    simp [layout_loop, header_default, map_assign, hf]
  · rw [build_archive_eq]
    have hf : sample_e3.filename = sample_e1.filename := rfl
    simp [layout_loop, header_default, map_assign, hf]

/-! ## C19: integer codec round trip -/

/-- C19. Integer codec round trip, on either host: for every buffer `b`, every
32-bit `v`, every 64-bit `w` and every byte run `r` (the written buffers being
of `size_t` lengths), and every old content of the outputs: after
`write_u32(v)` appends to `b`, a `byte_reader` on the written buffer at
position `|b|` returns `KRES_OK` from `read_u32` with the value `v` and the
position `|b| + 4`; after `write_u64(w)`, `read_u64` returns `w` and the
position `|b| + 8`; after `write_bytes(r)`, `read_bytes(|r|)` returns `r` and
the position `|b| + |r|`. -/
theorem codec_roundtrip (be : Bool) (b : byte_vec) (v w : Nat) (r : byte_vec)
    (out : Nat) (bytes_out : byte_vec)
    (hv : v < 2 ^ 32) (hw : w < 2 ^ 64)
    (hb : b.length + 8 < 2 ^ 64) (hr : b.length + r.length < 2 ^ 64) :
    byte_reader.read_u32 be ⟨(byte_writer.write_u32 be ⟨b⟩ v).buffer, b.length⟩ out =
      some (KRES_OK, ⟨(byte_writer.write_u32 be ⟨b⟩ v).buffer, b.length + 4⟩, v) ∧
    byte_reader.read_u64 be ⟨(byte_writer.write_u64 be ⟨b⟩ w).buffer, b.length⟩ out =
      some (KRES_OK, ⟨(byte_writer.write_u64 be ⟨b⟩ w).buffer, b.length + 8⟩, w) ∧
    byte_reader.read_bytes ⟨(byte_writer.write_bytes ⟨b⟩ r).buffer, b.length⟩ r.length
        bytes_out =
      some (KRES_OK, ⟨(byte_writer.write_bytes ⟨b⟩ r).buffer, b.length + r.length⟩, r) := by
  refine ⟨?_, ?_, ?_⟩
  · rw [write_u32_buffer]
    have h := read_u32_ok be (b ++ le_bytes 4 (host_to_le32 be v)) b.length out
      (le_bytes 4 (host_to_le32 be v)) [] (by simp) (le_bytes_length _ _)
      (by simp only [List.length_append, le_bytes_length]; omega)
    rw [decode_le_bytes32 be v hv] at h
    exact h
  · rw [write_u64_buffer]
    have h := read_u64_ok be (b ++ le_bytes 8 (host_to_le64 be w)) b.length out
      (le_bytes 8 (host_to_le64 be w)) [] (by simp) (le_bytes_length _ _)
      (by simp only [List.length_append, le_bytes_length]; omega)
    rw [decode_le_bytes64 be w hw] at h
    exact h
  · rw [write_bytes_buffer]
    exact read_bytes_ok (b ++ r) b.length bytes_out r [] (by simp)
      (by simp only [List.length_append]; omega) (by simp)

/-- Witness for C19: a two-byte buffer, the values `0x01020304` and
`0x0102030405060708`, a three-byte run, on a big-endian host. -/
theorem codec_roundtrip_witness :
    ((0x01020304 : Nat) < 2 ^ 32 ∧ (0x0102030405060708 : Nat) < 2 ^ 64 ∧
      ([9, 9] : byte_vec).length + 8 < 2 ^ 64 ∧
      ([9, 9] : byte_vec).length + ([1, 2, 3] : byte_vec).length < 2 ^ 64) ∧
    (byte_reader.read_u32 true
        ⟨(byte_writer.write_u32 true ⟨[9, 9]⟩ 0x01020304).buffer, ([9, 9] : byte_vec).length⟩ 0 =
      some (KRES_OK, ⟨(byte_writer.write_u32 true ⟨[9, 9]⟩ 0x01020304).buffer,
        ([9, 9] : byte_vec).length + 4⟩, 0x01020304) ∧
    byte_reader.read_u64 true
        ⟨(byte_writer.write_u64 true ⟨[9, 9]⟩ 0x0102030405060708).buffer,
          ([9, 9] : byte_vec).length⟩ 0 =
      some (KRES_OK, ⟨(byte_writer.write_u64 true ⟨[9, 9]⟩ 0x0102030405060708).buffer,
        ([9, 9] : byte_vec).length + 8⟩, 0x0102030405060708) ∧
    byte_reader.read_bytes ⟨(byte_writer.write_bytes ⟨[9, 9]⟩ [1, 2, 3]).buffer,
        ([9, 9] : byte_vec).length⟩ ([1, 2, 3] : byte_vec).length [] =
      some (KRES_OK, ⟨(byte_writer.write_bytes ⟨[9, 9]⟩ [1, 2, 3]).buffer,
        ([9, 9] : byte_vec).length + ([1, 2, 3] : byte_vec).length⟩, [1, 2, 3])) :=
  ⟨⟨by decide, by decide, by decide, by decide⟩,
    codec_roundtrip true [9, 9] 0x01020304 0x0102030405060708 [1, 2, 3] 0 [] (by decide)
      (by decide) (by decide) (by decide)⟩

/-! ## C20: wire order on a big-endian host -/

/-- C20 (defect shown). On a big-endian host `write_u32` and `write_u64` swap
the value and then take its bytes by shifts, which do not depend on the host:
`write_u32(0x01020304)` appends `01 02 03 04` and `write_u64(1)` appends
`00 00 00 00 00 00 00 01`, most significant byte first, and the bytes that
`serialize_archive` produces for the empty archive differ between the two
hosts. On a little-endian host `write_u32` appends the four bytes of the claim
for every value. -/
theorem write_u32_big_endian_host :
    (byte_writer.write_u32 true ⟨[]⟩ 0x01020304).buffer = [1, 2, 3, 4] ∧
    (byte_writer.write_u32 false ⟨[]⟩ 0x01020304).buffer = [4, 3, 2, 1] ∧
    (byte_writer.write_u64 true ⟨[]⟩ 1).buffer = [0, 0, 0, 0, 0, 0, 0, 1] ∧
    (byte_writer.write_u64 false ⟨[]⟩ 1).buffer = [1, 0, 0, 0, 0, 0, 0, 0] ∧
    serialize_archive id true init_archive [] ≠ serialize_archive id false init_archive [] ∧
    (∀ (b : byte_vec) (v : Nat), (byte_writer.write_u32 false ⟨b⟩ v).buffer =
      b ++ [to_byte (v &&& 0xFF), to_byte ((v >>> 8) &&& 0xFF), to_byte ((v >>> 16) &&& 0xFF),
        to_byte ((v >>> 24) &&& 0xFF)]) := by
  refine ⟨by decide, by decide, by decide, by decide, by decide, ?_⟩
  intro b v
  simp [byte_writer.write_u32, byte_writer.push_back, host_to_le32]

/-! ## C21: recorded offsets -/

/-- C21. Recorded offsets are the real positions, on either host and for every
iteration order: for every entry list `E` of `n` entries with
`size = length(data)` and pairwise distinct ids and every optional user data
`ud`, built by `build_archive` into a fresh archive (the lengths of `ud` and of
the produced buffer being `size_t` values): the header alone serializes to
`28 + 16 * n + |ud|` bytes; `|raw_data|` is `28 + 16 * n + |ud|` plus the sum
over all entries of `4 + length(filename) + 1 + 4 + 8 + size`; and for the
entry `e` at index `i` the recorded offset is `28 + 16 * n + |ud|` plus that
sum over the entries before `i`, the bytes of `raw_data` before this offset
are what `serialize_archive` writes for the header and the first `i` entries,
and the bytes from this offset on start with the five writes of the record of
`e`. -/
theorem build_archive_offsets_are_positions (X : string → Nat)
    (order : List (Nat × Nat) → List (Nat × Nat)) (be : Bool) (E : List entry)
    (ud : Option byte_vec)
    (horder : ∀ m, (order m).Perm m)
    (hsize : ∀ e ∈ E, e.size = e.data.length)
    (hids : (E.map (fun e => generate_id X e.filename)).Nodup)
    (hud : (ud.getD []).length < 2 ^ 64)
    (hfit : (build_archive X order be E init_archive ud).2.raw_data.length < 2 ^ 64) :
    (serialize_archive order be
        { (build_archive X order be E init_archive ud).2 with entries := [] } []).2.length =
      28 + 16 * E.length + (ud.getD []).length ∧
    (build_archive X order be E init_archive ud).2.raw_data.length =
      28 + 16 * E.length + (ud.getD []).length +
        (E.map (fun e => 4 + e.filename.length + 1 + 4 + 8 + e.size)).sum ∧
    ∀ (i : Nat) (e : entry), E[i]? = some e →
      map_find (build_archive X order be E init_archive ud).2.header.offset_table
          (generate_id X e.filename) =
        some (28 + 16 * E.length + (ud.getD []).length +
          ((E.take i).map (fun e => 4 + e.filename.length + 1 + 4 + 8 + e.size)).sum) ∧
      (build_archive X order be E init_archive ud).2.raw_data.take
          (28 + 16 * E.length + (ud.getD []).length +
            ((E.take i).map (fun e => 4 + e.filename.length + 1 + 4 + 8 + e.size)).sum) =
        (serialize_archive order be
          { (build_archive X order be E init_archive ud).2 with entries := E.take i } []).2 ∧
      ∃ rest : byte_vec,
        (build_archive X order be E init_archive ud).2.raw_data.drop
            (28 + 16 * E.length + (ud.getD []).length +
              ((E.take i).map (fun e => 4 + e.filename.length + 1 + 4 + 8 + e.size)).sum) =
          ((((((byte_writer.mk []).write_u32 be e.filename_len).write_string
            e.filename).write_u32 be e.crc32).write_u64 be e.size).write_bytes
              e.data).buffer ++ rest := by
  have hra : (fun e : entry => 4 + e.filename.length + 1 + 4 + 8 + e.size) = record_advance :=
    rfl
  obtain ⟨H, hb, hlen, htot, hpos⟩ :=
    build_archive_positions X order be E ud horder hsize hids hud hfit
  rw [hb, hra]
  simp only [serialize_archive_eq, List.nil_append, entries_bytes, List.append_nil]
  refine ⟨hlen, htot, ?_⟩
  intro i e he
  obtain ⟨h1, h2, h3⟩ := hpos i e he
  exact ⟨h1, h2, _, by rw [record_writer_buffer]; exact h3⟩

/-- Witness for C21: the two sample entries, a two-byte user section, the table
iterated in reverse, on a big-endian host. -/
theorem build_archive_offsets_are_positions_witness :
    ((∀ m : List (Nat × Nat), (List.reverse m).Perm m) ∧
      (∀ e ∈ [sample_e1, sample_e2], e.size = e.data.length) ∧
      ([sample_e1, sample_e2].map (fun e => generate_id sample_hash e.filename)).Nodup ∧
      ((some [7, 9] : Option byte_vec).getD []).length < 2 ^ 64 ∧
      (build_archive sample_hash List.reverse true [sample_e1, sample_e2] init_archive
        (some [7, 9])).2.raw_data.length < 2 ^ 64) ∧
    map_find (build_archive sample_hash List.reverse true [sample_e1, sample_e2] init_archive
        (some [7, 9])).2.header.offset_table (generate_id sample_hash sample_e2.filename) =
      some (28 + 16 * [sample_e1, sample_e2].length +
        ((some [7, 9] : Option byte_vec).getD []).length +
        (([sample_e1, sample_e2].take 1).map
          (fun e => 4 + e.filename.length + 1 + 4 + 8 + e.size)).sum) :=
  ⟨⟨fun m => List.reverse_perm m, by decide, by decide, by decide, by decide⟩,
    ((build_archive_offsets_are_positions sample_hash List.reverse true [sample_e1, sample_e2]
      (some [7, 9]) (fun m => List.reverse_perm m) (by decide) (by decide) (by decide)
      (by decide)).2.2 1 sample_e2 rfl).1⟩

/-! ## C22: the collision branch of append_entry -/

/-- C22 (defect shown). The collision branch reads `ar->entries[e_id]`, the
entry sequence indexed by the 64-bit id itself. Whenever the offset table
holds the id and the id is not smaller than the number of entries, the read
falls outside the sequence (the result `none`): so it is for the archive that
`build_archive` makes from the one entry `("t.x", "hello")` and the append of
that entry, under the sample hash, whose id for `"t.x"` is not `0`. Under the
hash that sends `"t.x"` to `1` and every other name to `0`, in the archive
built from `("t.x", "hello")` and `("f", "foo")` the entry read for the name
`"t.x"` is the one at index `1`, the entry named `"f"`, whose id is `0`. -/
theorem append_entry_indexes_by_id :
    (∀ (X : string → Nat) (ar : archive) (e : entry),
      map_contains ar.header.offset_table (generate_id X e.filename) = true →
      ar.entries.length ≤ generate_id X e.filename → append_entry X ar e = none) ∧
    (map_contains
        (build_archive sample_hash id false [sample_e1] init_archive none).2.header.offset_table
        (generate_id sample_hash sample_e1.filename) = true ∧
      (build_archive sample_hash id false [sample_e1] init_archive none).2.entries.length = 1 ∧
      1 ≤ generate_id sample_hash sample_e1.filename ∧
      append_entry sample_hash
        (build_archive sample_hash id false [sample_e1] init_archive none).2 sample_e1 =
          none) ∧
    (map_contains
        (build_archive small_hash id false [sample_e1, sample_e2] init_archive
          none).2.header.offset_table (generate_id small_hash sample_e3.filename) = true ∧
      generate_id small_hash sample_e3.filename = 1 ∧
      (build_archive small_hash id false [sample_e1, sample_e2] init_archive
        none).2.entries[generate_id small_hash sample_e3.filename]? = some sample_e2 ∧
      generate_id small_hash sample_e2.filename = 0 ∧
      generate_id small_hash sample_e1.filename = 1) := by
  refine ⟨?_, ⟨by decide, by decide, by decide, by decide⟩,
    ⟨by decide, by decide, by decide, by decide, by decide⟩⟩
  intro X ar e hc hle
  simp [append_entry, hc, List.getElem?_eq_none hle]

/-! ## C23: serialize_archive appends -/

/-- C23. `serialize_archive` appends and does not reset its output, on either
host and for every iteration order. For every archive and every initial
content `b` of the output it returns `KRES_OK` and leaves `b` followed by the
bytes it produces on an empty output. So for every archive `out`, whatever its
`raw_data`, `build_archive` returns `KRES_OK`, leaves the old `raw_data`
followed by the bytes it produces when `raw_data` is empty, and records the
header, hence the offsets, that it records when `raw_data` is empty. In
particular, for a fresh archive whose `raw_data` is `b` and entries with
`size = length(data)` and pairwise distinct ids (all lengths being `size_t`
values), the record of every entry starts in `raw_data` at `|b|` plus its
recorded offset. -/
theorem serialize_archive_appends (X : string → Nat)
    (order : List (Nat × Nat) → List (Nat × Nat)) (be : Bool) (arch : archive)
    (b : byte_vec) (E : List entry) (out : archive) (ud : Option byte_vec) :
    serialize_archive order be arch b =
      (KRES_OK, b ++ (serialize_archive order be arch []).2) ∧
    (build_archive X order be E out ud).1 = KRES_OK ∧
    (build_archive X order be E out ud).2.raw_data =
      out.raw_data ++ (build_archive X order be E { out with raw_data := [] } ud).2.raw_data ∧
    (build_archive X order be E out ud).2.header =
      (build_archive X order be E { out with raw_data := [] } ud).2.header ∧
    ((∀ m, (order m).Perm m) →
      (∀ e ∈ E, e.size = e.data.length) →
      (E.map (fun e => generate_id X e.filename)).Nodup →
      (ud.getD []).length < 2 ^ 64 →
      (build_archive X order be E { init_archive with raw_data := b } ud).2.raw_data.length
        < 2 ^ 64 →
      ∀ e ∈ E, ∃ (o : Nat) (rest : byte_vec),
        map_find (build_archive X order be E { init_archive with raw_data := b }
          ud).2.header.offset_table (generate_id X e.filename) = some o ∧
        (build_archive X order be E { init_archive with raw_data := b } ud).2.raw_data.drop
            (b.length + o) =
          ((((((byte_writer.mk []).write_u32 be e.filename_len).write_string
            e.filename).write_u32 be e.crc32).write_u64 be e.size).write_bytes
              e.data).buffer ++ rest) := by
  have hbuild : ∀ o : archive,
      (build_archive X order be E o ud).1 = KRES_OK ∧
      (build_archive X order be E o ud).2.raw_data =
        o.raw_data ++ (build_archive X order be E { o with raw_data := [] } ud).2.raw_data ∧
      (build_archive X order be E o ud).2.header =
        (build_archive X order be E { o with raw_data := [] } ud).2.header := by
    intro o
    cases ud <;> simp [build_archive, serialize_archive_eq]
  refine ⟨by simp [serialize_archive_eq], (hbuild out).1, (hbuild out).2.1, (hbuild out).2.2, ?_⟩
  intro horder hsize hids hud hfit e he
  obtain ⟨_, hraw, hhdr⟩ := hbuild { init_archive with raw_data := b }
  have hinit : ({ ({ init_archive with raw_data := b } : archive) with raw_data := [] }
      : archive) = init_archive := rfl
  rw [hinit] at hraw hhdr
  rw [hraw] at hfit ⊢
  rw [hhdr]
  simp only [List.length_append] at hfit
  obtain ⟨H, hb, _, _, hpos⟩ :=
    build_archive_positions X order be E ud horder hsize hids hud (by omega)
  obtain ⟨i, hi⟩ := List.getElem?_of_mem he
  obtain ⟨h1, _, h3⟩ := hpos i e hi
  rw [hb]
  refine ⟨_, entries_bytes be (E.drop (i + 1)), h1, ?_⟩
  show List.drop (b.length + _) (b ++ (header_bytes order be H ++ entries_bytes be E)) = _
  rw [record_writer_buffer, List.drop_append, h3]

/-- Instance of C23: the two sample entries built, on a little-endian host and
with the table iterated in reverse, into a fresh archive whose `raw_data`
already holds three bytes. -/
theorem serialize_archive_appends_witness :
    ((∀ m : List (Nat × Nat), (List.reverse m).Perm m) ∧
      (∀ e ∈ [sample_e1, sample_e2], e.size = e.data.length) ∧
      ([sample_e1, sample_e2].map (fun e => generate_id sample_hash e.filename)).Nodup ∧
      ((none : Option byte_vec).getD []).length < 2 ^ 64 ∧
      (build_archive sample_hash List.reverse false [sample_e1, sample_e2]
        { init_archive with raw_data := [1, 2, 3] } none).2.raw_data.length < 2 ^ 64) ∧
    ∀ e ∈ [sample_e1, sample_e2], ∃ (o : Nat) (rest : byte_vec),
      map_find (build_archive sample_hash List.reverse false [sample_e1, sample_e2]
        { init_archive with raw_data := [1, 2, 3] } none).2.header.offset_table
          (generate_id sample_hash e.filename) = some o ∧
      (build_archive sample_hash List.reverse false [sample_e1, sample_e2]
        { init_archive with raw_data := [1, 2, 3] } none).2.raw_data.drop
          (([1, 2, 3] : byte_vec).length + o) =
        ((((((byte_writer.mk []).write_u32 false e.filename_len).write_string
          e.filename).write_u32 false e.crc32).write_u64 false e.size).write_bytes
            e.data).buffer ++ rest :=
  ⟨⟨fun m => List.reverse_perm m, by decide, by decide, by decide, by decide⟩,
    (serialize_archive_appends sample_hash List.reverse false init_archive [1, 2, 3]
      [sample_e1, sample_e2] init_archive none).2.2.2.2 (fun m => List.reverse_perm m)
      (by decide) (by decide) (by decide) (by decide)⟩

end kres
